import Mathlib

/-!
Verification of the GUDHI persistence-matrix engine against its
natural-language specification.

The development shallowly embeds the column, field-element and matrix
operations of the persistence-matrix module:

* `Z2Col` — the characteristic-2 columns (`Z2_vector_column`,
  `Z2_intrusive_list_boundary_column`): a column is the list of row indices
  of its non-zero cells, kept sorted by strictly increasing row index.
* `FpCol` — columns over a prime field or multi-field, as sorted
  `(row, value)` association lists.
* `Chain` — chain columns sharing a pivot-to-column dictionary
  (`Set_chain_column`).
* `MultiField` — the shared multi-field element with small characteristics
  (`Shared_multi_field_element_with_small_characteristics`), with unsigned
  32-bit machine arithmetic made explicit as arithmetic modulo 2^32.
* `BMat` — the boundary matrix (`Boundary_matrix`) in the configuration
  with a vector column container, removable columns, row access with
  removable rows, dimension tracking, and no lazy swaps.
* `SwapEngine` — the lazy row-swap state machine consulted by the external
  read operations of `Boundary_matrix`.
-/

namespace Z2Col

/-- Merge walk of `Z2_vector_column::operator+=` (also used by the list and
set based characteristic-2 columns): two cursors walk the sorted target and
source; a row present in both is dropped (`_delete_cell`), a source-only row
is inserted, a target-only row is kept, and the leftover tail of either side
is appended. -/
def symAdd : List Nat → List Nat → List Nat
  | ts, [] => ts
  | [], s :: ss => s :: ss
  | t :: ts, s :: ss =>
    if s = t then symAdd ts ss
    else if s < t then s :: symAdd (t :: ts) ss
    else t :: symAdd ts (s :: ss)
termination_by ts ss => ts.length + ss.length

/-- `Z2_vector_column::operator+=`: the two early-out branches (empty source:
return unchanged; empty target: copy every source cell) followed by the merge
walk `symAdd`. -/
def addTo (target source : List Nat) : List Nat :=
  if source.isEmpty then target
  else if target.isEmpty then source
  else symAdd target source

/-- `Z2_vector_column::operator*=`: over characteristic 2 the column is
cleared when the scalar is even and untouched otherwise. -/
def scalarMul (column : List Nat) (v : Nat) : List Nat :=
  if v % 2 = 0 then [] else column

/-- `Z2_intrusive_list_boundary_column::get_pivot`: `-1` on the empty column,
otherwise the row index of the last cell (`column_.back()`). The method
returns `int` while `get_row_index()` returns the unsigned row index, so the
value undergoes the unsigned-to-signed 32-bit narrowing conversion. -/
def get_pivot (column : List Nat) : Int :=
  match column.getLast? with
  | none => -1
  | some r => if r ≤ 2147483647 then (r : Int) else (r : Int) - 4294967296

end Z2Col

namespace FpCol

/-- Modelled from the spec: the additive merge of the general-field columns
(`Set_column::operator+=` / `multiply_and_add`, whose header is not under
`src/`). Per spec §4.2, the merge of two sorted cell sequences computes
`target = cT·target + cS·source`: rows present in only one column are copied
in scaled by the corresponding coefficient, rows present in both have their
values combined, and a cell is dropped when the combined value is the
additive identity of the field `Z/pZ`. -/
def merge (p cT cS : Nat) : List (Nat × Nat) → List (Nat × Nat) → List (Nat × Nat)
  | tc :: ts, sc :: ss =>
    if sc.1 = tc.1 then
      let v := (cT * tc.2 + cS * sc.2) % p
      if v = 0 then merge p cT cS ts ss else (tc.1, v) :: merge p cT cS ts ss
    else if sc.1 < tc.1 then
      let v := (cS * sc.2) % p
      if v = 0 then merge p cT cS (tc :: ts) ss else (sc.1, v) :: merge p cT cS (tc :: ts) ss
    else
      let v := (cT * tc.2) % p
      if v = 0 then merge p cT cS ts (sc :: ss) else (tc.1, v) :: merge p cT cS ts (sc :: ss)
  | [], sc :: ss =>
    let v := (cS * sc.2) % p
    if v = 0 then merge p cT cS [] ss else (sc.1, v) :: merge p cT cS [] ss
  | tc :: ts, [] =>
    let v := (cT * tc.2) % p
    if v = 0 then merge p cT cS ts [] else (tc.1, v) :: merge p cT cS ts []
  | [], [] => []
termination_by ts ss => ts.length + ss.length

/-- Modelled from the spec: `target += source` over `Z/pZ` (both coefficients
are the multiplicative identity). -/
def addTo (p : Nat) (target source : List (Nat × Nat)) : List (Nat × Nat) :=
  merge p 1 1 target source

/-- Modelled from the spec: `target -= source` over `Z/pZ`; subtracting a
value is adding its additive inverse `p - v`. -/
def subFrom (p : Nat) (target source : List (Nat × Nat)) : List (Nat × Nat) :=
  merge p 1 (p - 1) target source

/-- The field value stored in a column at a row (`0` when the row is absent):
the semantics of an association-list column. -/
def toFun (l : List (Nat × Nat)) (r : Nat) : Nat :=
  match l.find? (fun c => c.1 = r) with
  | none => 0
  | some c => c.2

/-- Cells are sorted by strictly increasing row index. -/
def SortedKeys (l : List (Nat × Nat)) : Prop :=
  l.Pairwise (fun a b => a.1 < b.1)

/-- All stored values are non-zero elements of `Z/pZ`. -/
def ValuesOk (p : Nat) (l : List (Nat × Nat)) : Prop :=
  ∀ c ∈ l, c.2 ≠ 0 ∧ c.2 < p

end FpCol

namespace Chain

/-- A chain column (`Set_chain_column`): the underlying `Set_column` content
plus the cached pivot (`pivot_`, `-1` for the empty chain) and the paired
column index (`pairedColumn_`, `-1` when unpaired). -/
structure Col where
  content : List (Nat × Nat)
  pivot : Int
  paired : Int
deriving DecidableEq

/-- The shared state of the chain columns of one matrix: the column container
and the pivot-to-column dictionary (`pivotToColumnIndex_`) shared by every
column. -/
structure State where
  cols : List Col
  dict : Int → Nat

/-- `Set_column::is_non_zero` applied to the cached pivot: does the content
hold a cell at that row index. -/
def isNonZeroAt (content : List (Nat × Nat)) (piv : Int) : Bool :=
  content.any (fun c => (c.1 : Int) = piv)

/-- `std::swap(pivotToColumnIndex_->at(a), pivotToColumnIndex_->at(b))`. -/
def swapDict (d : Int → Nat) (a b : Int) : Int → Nat :=
  fun x => if x = a then d b else if x = b then d a else d x

/-- The shared tail of `Set_chain_column::operator+=` and both
`multiply_and_add` overloads: perform the underlying additive merge `f` of
the two contents, then, if the target's original pivot entry became zero,
swap the dictionary entries of the two pivots and the two cached pivot
fields. -/
def combine (s : State) (f : List (Nat × Nat) → List (Nat × Nat) → List (Nat × Nat))
    (tgt src : Nat) : State :=
  match s.cols[tgt]?, s.cols[src]? with
  | some t, some c =>
    let newContent := f t.content c.content
    if isNonZeroAt newContent t.pivot then
      { s with cols := s.cols.set tgt { t with content := newContent } }
    else
      { cols := (s.cols.set tgt { t with content := newContent, pivot := c.pivot }).set src
          { c with pivot := t.pivot },
        dict := swapDict s.dict t.pivot c.pivot }
  | _, _ => s

/-- One addition request between two chain columns of the same matrix:
`operator+=`, `multiply_and_add(v, column)` (target scaled), or
`multiply_and_add(column, v)` (source scaled). -/
inductive Op where
  | add (tgt src : Nat)
  | mulAddTargetScaled (v tgt src : Nat)
  | mulAddSourceScaled (v tgt src : Nat)

/-- Apply one chain-column addition over `Z/pZ`. -/
def applyOp (p : Nat) (s : State) : Op → State
  | .add tgt src => combine s (FpCol.merge p 1 1) tgt src
  | .mulAddTargetScaled v tgt src => combine s (FpCol.merge p v 1) tgt src
  | .mulAddSourceScaled v tgt src => combine s (FpCol.merge p 1 v) tgt src

/-- Apply a finite sequence of chain-column additions. -/
def applyOps (p : Nat) (ops : List Op) (s : State) : State :=
  ops.foldl (applyOp p) s

/-- No two distinct live chain columns report the same pivot
(`get_pivot` returns the cached `pivot_` field). -/
def pivotsDistinct (s : State) : Prop :=
  (s.cols.map (·.pivot)).Nodup

end Chain

namespace MultiField

/-- `2^32`: unsigned int arithmetic is arithmetic modulo this word size. -/
def u32 : Nat := 4294967296

/-- Unsigned 32-bit addition (wrapping). -/
def uadd (a b : Nat) : Nat := (a + b) % u32

/-- Unsigned 32-bit subtraction (wrapping), for `a b < 2^32`. -/
def usub (a b : Nat) : Nat := (a + u32 - b) % u32

/-- `Shared_multi_field_element_with_small_characteristics::_add` over the
characteristic `N`: if `element_ + v` overflows the unsigned word, rely on
the wraparound and subtract `N`; otherwise add and reduce once. -/
def fAdd (N element v : Nat) : Nat :=
  if u32 - 1 - element < v then usub (uadd element v) N
  else if N ≤ element + v then element + v - N
  else element + v

/-- `Shared_multi_field_element_with_small_characteristics::_substract`:
if the subtrahend is larger, first add `N` (possibly wrapping), then
subtract. -/
def fSub (N element v : Nat) : Nat :=
  if element < v then usub (uadd element N) v
  else element - v

/-- One conditional addition step of `_multiply`: add `b` to `res` modulo
`N` without overflow (`if (b >= N - res) res -= N; res += b`). -/
def mulStep (N res b : Nat) : Nat :=
  if N - res ≤ b then uadd (usub res N) b else uadd res b

/-- The doubling step of `_multiply`: double `b` modulo `N` without overflow
(`temp_b = b; if (b >= N - b) temp_b -= N; b += temp_b`). -/
def dblStep (N b : Nat) : Nat :=
  if N - b ≤ b then uadd b (usub b N) else uadd b b

/-- The double-and-add loop of
`Shared_multi_field_element_with_small_characteristics::_multiply`. -/
def mulLoop (N a b res : Nat) : Nat :=
  if a = 0 then res
  else mulLoop N (a / 2) (dblStep N b) (if a % 2 = 1 then mulStep N res b else res)
termination_by a
decreasing_by exact Nat.div_lt_self (Nat.pos_of_ne_zero (by assumption)) (by omega)

/-- `Shared_multi_field_element_with_small_characteristics::_multiply`:
swap so the loop runs on the smaller operand, then double-and-add. -/
def fMul (N a b : Nat) : Nat :=
  if b < a then mulLoop N b a 0 else mulLoop N a b 0

/-- Conversion of an `unsigned int` value to (32-bit) `int`, as performed by
the call `_is_prime(minimum)` and `_is_prime(i)` inside `initialize`. -/
def toInt32 (u : Nat) : Int :=
  if u ≤ 2147483647 then (u : Int) else (u : Int) - (u32 : Int)

/-- The 6k±1 trial-division loop of `_is_prime`
(`for (long i = 5; i * i <= p; i = i + 6)`), on the magnitude of `p`. -/
def trialLoop (n i : Nat) : Bool :=
  if i * i ≤ n then
    if n % i = 0 ∨ n % (i + 2) = 0 then false
    else trialLoop n (i + 6)
  else true
termination_by n + 1 - i * i
decreasing_by
  have h2 : i * i < (i + 6) * (i + 6) := by nlinarith
  omega

/-- `Shared_multi_field_element_with_small_characteristics::_is_prime`,
taking a (signed) `int` argument. -/
def isPrimeSrc (p : Int) : Bool :=
  if p ≤ 1 then false
  else if p ≤ 3 then true
  else if p % 2 = 0 ∨ p % 3 = 0 then false
  else trialLoop p.toNat 5

/-- `Shared_multi_field_element_with_small_characteristics::initialize`:
validates the characteristic interval (throwing `std::invalid_argument` on
the three guard checks and when the prime scan comes up empty), collects the
primes of `[minimum, maximum]`, and accumulates
`productOfAllCharacteristics_` in unsigned 32-bit arithmetic. On success it
returns the prime list and the stored characteristic. -/
def fieldInit (minimum maximum : Nat) : Except String (List Nat × Nat) :=
  if maximum < 2 then .error "Characteristic must be strictly positive"
  else if maximum < minimum then .error "The given interval is not valid."
  else if minimum = maximum ∧ ¬ isPrimeSrc (toInt32 minimum) then
    .error "The given interval does not contain a prime number."
  else
    let primes := (List.range' minimum (maximum - minimum + 1)).filter
      (fun i => isPrimeSrc (toInt32 i))
    if primes.isEmpty then .error "The given interval does not contain a prime number."
    else .ok (primes, primes.foldl (fun acc i => acc * i % u32) 1)

end MultiField

namespace BMat

/-- One column of the boundary matrix: the characteristic-2 cell rows and the
stored dimension of the represented face. -/
structure Col where
  cells : List Nat
  dim : Int
deriving DecidableEq

/-- Modelled from the spec: the dimension-tracking mixin
(`Matrix_dimension_option` with removable columns, whose header is not under
`src/`) keeps, per dimension, the number of live faces of that dimension, and
exposes the maximal dimension currently present. `update_up d` bumps the
count of dimension `d`. -/
def bumpAt : List Nat → Nat → List Nat
  | [], 0 => [1]
  | [], d + 1 => 0 :: bumpAt [] d
  | c :: rest, 0 => (c + 1) :: rest
  | c :: rest, d + 1 => c :: bumpAt rest d

/-- Modelled from the spec: `update_down d` of the dimension-tracking mixin
decrements the count of dimension `d`. -/
def dropAt : List Nat → Nat → List Nat
  | [], _ => []
  | c :: rest, 0 => (c - 1) :: rest
  | c :: rest, d + 1 => c :: dropAt rest d

/-- The maximal dimension with a live face, `-1` when no dimension has one:
the dimension-tracking observable. -/
def maxDimension : List Nat → Int
  | [] => -1
  | c :: rest =>
    if 0 ≤ maxDimension rest then maxDimension rest + 1
    else if 0 < c then 0 else -1

/-- `Boundary_matrix` in the configuration with a vector column container,
removable columns, row access with removable rows, dimension tracking and no
lazy swaps: the column container (whose length is `nextInsertIndex_`), the
row-access container mapping a row index to the column indices holding a
cell in that row (`[]` for an absent row), and the per-dimension face
counts of the dimension-tracking mixin. -/
structure State where
  columns : List Col
  rows : Nat → List Nat
  dimensions : List Nat

/-- Modelled from the spec: `Row_access_option::insert_cell` appends the new
cell (identified by its owning column index) to the row container entry of
its row, creating the entry when absent. -/
def insertCellRows (rows : Nat → List Nat) (boundary : List Nat) (colIdx : Nat) :
    Nat → List Nat :=
  fun r => if r ∈ boundary then rows r ++ [colIdx] else rows r

/-- `Boundary_matrix::insert_boundary` in the modelled configuration:
computes the defaulted dimension, appends the new column at
`nextInsertIndex_` (inserting its cells into the row container), and bumps
the dimension count of `boundary.size() - 1` (`0` for an empty boundary). -/
def insert_boundary (s : State) (boundary : List Nat) (dim : Int) : State :=
  let d : Int := if dim = -1 then (if boundary = [] then 0 else (boundary.length - 1 : Nat)) else dim
  { columns := s.columns ++ [{ cells := boundary, dim := d }],
    rows := insertCellRows s.rows boundary s.columns.length,
    dimensions := bumpAt s.dimensions (if boundary = [] then 0 else boundary.length - 1) }

/-- `Boundary_matrix::remove_last` in the modelled configuration: returns the
sentinel `-1` on an empty matrix; otherwise decrements the insertion cursor,
updates the dimension count down with the removed column's stored dimension,
captures its pivot, pops the column (unlinking its cells from every row), and
erases the now-empty row of the removed face. -/
def remove_last (s : State) : Int × State :=
  match s.columns.getLast? with
  | none => (-1, s)
  | some col =>
    let n := s.columns.length - 1
    let pivot := Z2Col.get_pivot col.cells
    (pivot,
      { columns := s.columns.dropLast,
        rows := fun r => if r = n then [] else (s.rows r).filter (· ≠ n),
        dimensions := dropAt s.dimensions col.dim.toNat })

/-- `Boundary_matrix::get_number_of_columns` (non-map container): the
insertion cursor. -/
def get_number_of_columns (s : State) : Nat := s.columns.length

end BMat

namespace SwapEngine

/-- The boundary matrix under the swap option: each column stores the
physical row labels of its cells; the lazy permutation is recorded in the
`indexToRow_` / `rowToIndex_` dictionaries together with the `rowSwapped_`
flag. -/
structure State where
  columns : List (List Nat)
  indexToRow : Nat → Nat
  rowToIndex : Nat → Nat
  rowSwapped : Bool

/-- Modelled from the spec: `Base_swap_option::_orderRows` (whose header is
not under `src/`) walks the columns once, relabels every cell's physical row
label to its logical row index, re-sorts each column, and resets the
dictionaries to the identity with the `rowSwapped_` flag cleared. -/
def orderRows (s : State) : State :=
  { columns := s.columns.map (fun col => (col.map s.rowToIndex).mergeSort (· ≤ ·)),
    indexToRow := fun x => x,
    rowToIndex := fun x => x,
    rowSwapped := false }

/-- The transposition of two row indices. -/
def transpose (r1 r2 x : Nat) : Nat :=
  if x = r1 then r2 else if x = r2 then r1 else x

/-- Modelled from the spec: recording an adjacent-transposition swap request
updates the two dictionaries in `O(1)` and raises `rowSwapped_`, touching no
cell. -/
def requestSwap (s : State) (r1 r2 : Nat) : State :=
  { s with
    indexToRow := fun x => s.indexToRow (transpose r1 r2 x),
    rowToIndex := fun p => transpose r1 r2 (s.rowToIndex p),
    rowSwapped := true }

/-- `Boundary_matrix::get_column` under the swap option: materialize the
pending permutation first, then hand out the column. -/
def get_column (s : State) (c : Nat) : List Nat :=
  let t := if s.rowSwapped then orderRows s else s
  t.columns.getD c []

/-- `Boundary_matrix::get_pivot` under the swap option: materialize the
pending permutation first, then read the column's pivot. -/
def get_pivot (s : State) (c : Nat) : Int :=
  let t := if s.rowSwapped then orderRows s else s
  Z2Col.get_pivot (t.columns.getD c [])

/-- Modelled from the spec: the row container of the row-access mixin (not
under `src/`). By the spec's row invariant, the cells reachable from row `r`
are exactly the cells across all columns whose row label equals `r`, so the
row is determined by the columns: it is the list of column indices holding a
cell with label `r`. -/
def rowCells (columns : List (List Nat)) (r : Nat) : List Nat :=
  (List.range columns.length).filter (fun c => (columns.getD c []).contains r)

/-- `Boundary_matrix::get_row` under the swap option: materialize the
pending permutation first (`if (rowSwapped_) _orderRows();`), then hand out
the row of the row container. -/
def get_row (s : State) (r : Nat) : List Nat :=
  let t := if s.rowSwapped then orderRows s else s
  rowCells t.columns r

/-- `Boundary_matrix::is_zero_cell` under the swap option: no
materialization; the queried row index is translated through
`indexToRow_`. -/
def is_zero_cell (s : State) (c : Nat) (r : Nat) : Bool :=
  ! (s.columns.getD c []).contains (s.indexToRow r)

/-- The swap-engine state invariant: the two dictionaries are mutually
inverse, a cleared `rowSwapped_` flag means the identity permutation, and
every column's cell labels are strictly sorted. -/
def WF (s : State) : Prop :=
  (∀ x, s.rowToIndex (s.indexToRow x) = x) ∧
  (∀ x, s.indexToRow (s.rowToIndex x) = x) ∧
  (s.rowSwapped = false → ∀ x, s.indexToRow x = x) ∧
  (∀ col ∈ s.columns, col.Sorted (· < ·))

end SwapEngine

namespace Z2Col

theorem symAdd_nil_right (ts : List Nat) : symAdd ts [] = ts := by
  cases ts <;> simp [symAdd]

theorem symAdd_nil_left (ss : List Nat) : symAdd [] ss = ss := by
  cases ss <;> simp [symAdd]

theorem symAdd_cons_cons_eq (t : Nat) (ts ss : List Nat) :
    symAdd (t :: ts) (t :: ss) = symAdd ts ss := by
  simp [symAdd]

theorem symAdd_cons_cons_lt {s t : Nat} (h : s < t) (ts ss : List Nat) :
    symAdd (t :: ts) (s :: ss) = s :: symAdd (t :: ts) ss := by
  rw [symAdd, if_neg (by omega), if_pos h]

theorem symAdd_cons_cons_gt {s t : Nat} (h : t < s) (ts ss : List Nat) :
    symAdd (t :: ts) (s :: ss) = t :: symAdd ts (s :: ss) := by
  rw [symAdd, if_neg (by omega), if_neg (by omega)]

theorem symAdd_subset : ∀ t s : List Nat, ∀ r : Nat, r ∈ symAdd t s → r ∈ t ∨ r ∈ s := by
  intro t s
  induction t, s using symAdd.induct with
  | case1 ts => simp [symAdd_nil_right]
  | case2 s ss => simp [symAdd_nil_left]
  | case3 ts s ss ih =>
    intro r hr
    rw [symAdd_cons_cons_eq] at hr
    rcases ih r hr with h | h
    · exact Or.inl (List.mem_cons_of_mem _ h)
    · exact Or.inr (List.mem_cons_of_mem _ h)
  | case4 t ts s ss hne hlt ih =>
    intro r hr
    rw [symAdd_cons_cons_lt hlt] at hr
    rcases List.mem_cons.mp hr with h | h
    · exact Or.inr (h ▸ List.mem_cons_self _ _)
    · rcases ih r h with h2 | h2
      · exact Or.inl h2
      · exact Or.inr (List.mem_cons_of_mem _ h2)
  | case5 t ts s ss hne hnlt ih =>
    intro r hr
    rw [symAdd_cons_cons_gt (by omega)] at hr
    rcases List.mem_cons.mp hr with h | h
    · exact Or.inl (h ▸ List.mem_cons_self _ _)
    · rcases ih r h with h2 | h2
      · exact Or.inl (List.mem_cons_of_mem _ h2)
      · exact Or.inr h2

theorem mem_symAdd : ∀ t s : List Nat, t.Sorted (· < ·) → s.Sorted (· < ·) →
    ∀ r : Nat, (r ∈ symAdd t s ↔ Xor' (r ∈ t) (r ∈ s)) := by
  intro t s
  induction t, s using symAdd.induct with
  | case1 ts =>
    intro _ _ r
    simp [symAdd_nil_right, Xor']
  | case2 s ss =>
    intro _ _ r
    simp [symAdd_nil_left, Xor']
  | case3 ts s ss ih =>
    intro ht hs r
    obtain ⟨hst, hts⟩ := List.sorted_cons.mp ht
    obtain ⟨hss, hsss⟩ := List.sorted_cons.mp hs
    rw [symAdd_cons_cons_eq, ih hts hsss r]
    by_cases hr : r = s
    · subst hr
      have h1 : r ∉ ts := fun h => lt_irrefl r (hst r h)
      have h2 : r ∉ ss := fun h => lt_irrefl r (hss r h)
      simp [Xor', h1, h2]
    · simp [Xor', List.mem_cons, hr]
  | case4 t ts s ss hne hlt ih =>
    intro ht hs r
    obtain ⟨hss, hsss⟩ := List.sorted_cons.mp hs
    rw [symAdd_cons_cons_lt hlt]
    by_cases hr : r = s
    · subst hr
      have h1 : r ∉ t :: ts := by
        intro h
        rcases List.mem_cons.mp h with h2 | h2
        · omega
        · exact absurd ((List.sorted_cons.mp ht).1 r h2) (by omega)
      have h2 : r ∉ ss := fun h => lt_irrefl r (hss r h)
      simp [Xor', h1, h2]
    · rw [List.mem_cons]
      simp only [hr, false_or]
      rw [ih ht hsss r]
      simp [Xor', List.mem_cons, hr]
  | case5 t ts s ss hne hnlt ih =>
    intro ht hs r
    obtain ⟨hts, htss⟩ := List.sorted_cons.mp ht
    have hlt : t < s := by omega
    rw [symAdd_cons_cons_gt hlt]
    by_cases hr : r = t
    · subst hr
      have h1 : r ∉ s :: ss := by
        intro h
        rcases List.mem_cons.mp h with h2 | h2
        · omega
        · exact absurd ((List.sorted_cons.mp hs).1 r h2) (by omega)
      have h2 : r ∉ ts := fun h => lt_irrefl r (hts r h)
      simp [Xor', h1, h2]
    · rw [List.mem_cons]
      simp only [hr, false_or]
      rw [ih htss hs r]
      simp [Xor', List.mem_cons, hr]

theorem sorted_symAdd : ∀ t s : List Nat, t.Sorted (· < ·) → s.Sorted (· < ·) →
    (symAdd t s).Sorted (· < ·) := by
  intro t s
  induction t, s using symAdd.induct with
  | case1 ts => intro ht _; simpa [symAdd_nil_right] using ht
  | case2 s ss => intro _ hs; simpa [symAdd_nil_left] using hs
  | case3 ts s ss ih =>
    intro ht hs
    rw [symAdd_cons_cons_eq]
    exact ih (List.sorted_cons.mp ht).2 (List.sorted_cons.mp hs).2
  | case4 t ts s ss hne hlt ih =>
    intro ht hs
    obtain ⟨hss, hsss⟩ := List.sorted_cons.mp hs
    rw [symAdd_cons_cons_lt hlt]
    refine List.sorted_cons.mpr ⟨?_, ih ht hsss⟩
    intro b hb
    rcases symAdd_subset _ _ b hb with h | h
    · rcases List.mem_cons.mp h with h2 | h2
      · omega
      · have := (List.sorted_cons.mp ht).1 b h2; omega
    · exact hss b h
  | case5 t ts s ss hne hnlt ih =>
    intro ht hs
    obtain ⟨hts, htss⟩ := List.sorted_cons.mp ht
    have hlt : t < s := by omega
    rw [symAdd_cons_cons_gt hlt]
    refine List.sorted_cons.mpr ⟨?_, ih htss hs⟩
    intro b hb
    rcases symAdd_subset _ _ b hb with h | h
    · exact hts b h
    · rcases List.mem_cons.mp h with h2 | h2
      · omega
      · have := (List.sorted_cons.mp hs).1 b h2; omega

theorem addTo_eq_symAdd (target source : List Nat) :
    addTo target source = symAdd target source := by
  unfold addTo
  rcases source with _ | ⟨s, ss⟩
  · simp [symAdd_nil_right]
  · rcases target with _ | ⟨t, ts⟩
    · simp [symAdd_nil_left]
    · simp

end Z2Col

theorem sorted_eq_of_mem_iff {l₁ l₂ : List Nat} (s₁ : l₁.Sorted (· < ·))
    (s₂ : l₂.Sorted (· < ·)) (h : ∀ a, a ∈ l₁ ↔ a ∈ l₂) : l₁ = l₂ :=
  ((List.perm_ext_iff_of_nodup s₁.nodup s₂.nodup).mpr h).eq_of_sorted
    (fun _ _ _ _ => Nat.le_antisymm) (s₁.imp le_of_lt) (s₂.imp le_of_lt)

namespace Z2Col

/-- Claim C2: for sorted Z2 columns, `target += source`
(`Z2_vector_column::operator+=`) produces the symmetric difference of the two
row-index sets, again sorted by strictly increasing row index (hence without
duplicate rows). -/
theorem addTo_symmetric_difference (target source : List Nat)
    (ht : target.Sorted (· < ·)) (hs : source.Sorted (· < ·)) :
    (∀ r : Nat, r ∈ addTo target source ↔ Xor' (r ∈ target) (r ∈ source)) ∧
      (addTo target source).Sorted (· < ·) := by
  rw [addTo_eq_symAdd]
  exact ⟨mem_symAdd _ _ ht hs, sorted_symAdd _ _ ht hs⟩

theorem addTo_symmetric_difference_witness :
    (∀ r : Nat, r ∈ addTo [0, 2, 3] [2, 5] ↔ Xor' (r ∈ [0, 2, 3]) (r ∈ [2, 5])) ∧
      (addTo [0, 2, 3] [2, 5]).Sorted (· < ·) :=
  addTo_symmetric_difference [0, 2, 3] [2, 5] (by decide) (by decide)

theorem le_getLast_of_sorted : ∀ l : List Nat, l.Sorted (· < ·) →
    ∀ r ∈ l, ∀ x, l.getLast? = some x → r ≤ x := by
  intro l
  induction l with
  | nil => intro _ r hr; cases hr
  | cons a rest ih =>
    intro hsort r hr x hx
    rcases rest with _ | ⟨b, rs⟩
    · rcases List.mem_singleton.mp hr with rfl
      simp only [List.getLast?_singleton, Option.some.injEq] at hx
      omega
    · rw [List.getLast?_cons_cons] at hx
      obtain ⟨ha, htail⟩ := List.sorted_cons.mp hsort
      rcases List.mem_cons.mp hr with rfl | h
      · have hb : b ≤ x := ih htail b (List.mem_cons_self _ _) x hx
        have : r < b := ha b (List.mem_cons_self _ _)
        omega
      · exact ih htail r h x hx

theorem get_pivot_of_getLast? {column : List Nat} {x : Nat}
    (hx : column.getLast? = some x) (hb : x ≤ 2147483647) :
    get_pivot column = (x : Int) := by
  unfold get_pivot
  rw [hx]
  exact if_pos hb

/-- Claim C7 counterexample: `get_pivot` narrows the unsigned row index to a
signed 32-bit `int`, so on the sorted non-empty column `{0, 2^32 - 1}` it
returns the sentinel `-1`, and on `{2^31}` it returns `-2^31` rather than the
maximum row index. -/
theorem get_pivot_narrowing_break :
    List.Sorted (· < ·) [0, 4294967295] ∧ ([0, 4294967295] : List Nat) ≠ [] ∧
      get_pivot [0, 4294967295] = -1 ∧
      get_pivot [2147483648] = -2147483648 :=
  ⟨by decide, by decide, by decide, by decide⟩

/-- Claim C7 (amended): on a column sorted by strictly increasing row index
all of whose row indices are at most `2^31 - 1` (so the `int` narrowing in
`Z2_intrusive_list_boundary_column::get_pivot` is value-preserving),
`get_pivot` returns the maximum row index among the non-zero cells, and
returns the sentinel `-1` exactly when the column is the zero column. -/
theorem get_pivot_is_max (column : List Nat) (h : column.Sorted (· < ·))
    (hbound : ∀ r ∈ column, r ≤ 2147483647) :
    (get_pivot column = -1 ↔ column = []) ∧
    (∀ r ∈ column, (r : Int) ≤ get_pivot column) ∧
    (column ≠ [] → ∃ r ∈ column, get_pivot column = (r : Int)) := by
  rcases hx : column.getLast? with _ | x
  · have hc : column = [] := List.getLast?_eq_none_iff.mp hx
    subst hc
    exact ⟨by simp [get_pivot], by simp, by simp⟩
  · have hmem : x ∈ column := List.mem_of_mem_getLast? hx
    have hne : column ≠ [] := by rintro rfl; cases hmem
    rw [get_pivot_of_getLast? hx (hbound x hmem)]
    refine ⟨⟨fun he => absurd he (by omega), fun he => absurd he hne⟩, ?_, ?_⟩
    · intro r hr
      exact_mod_cast le_getLast_of_sorted column h r hr x hx
    · exact fun _ => ⟨x, hmem, rfl⟩

theorem get_pivot_is_max_witness :
    (get_pivot [1, 4, 7] = -1 ↔ ([1, 4, 7] : List Nat) = []) ∧
      (∀ r ∈ ([1, 4, 7] : List Nat), (r : Int) ≤ get_pivot [1, 4, 7]) ∧
      (([1, 4, 7] : List Nat) ≠ [] →
        ∃ r ∈ ([1, 4, 7] : List Nat), get_pivot [1, 4, 7] = (r : Int)) :=
  get_pivot_is_max [1, 4, 7] (by decide) (by decide)

/-- Claim C10: `Z2_vector_column::operator*=` acts as multiplication by
`v mod 2`: a cell survives exactly when it was present and the scalar is odd;
multiplying by `1` is the identity and multiplying by `0` clears the
column. -/
theorem scalarMul_mod_two (c : List Nat) (v : Nat) :
    (∀ r : Nat, r ∈ scalarMul c v ↔ (r ∈ c ∧ v % 2 = 1)) ∧
      scalarMul c v = scalarMul c (v % 2) ∧ scalarMul c 1 = c ∧ scalarMul c 0 = [] := by
  unfold scalarMul
  rcases Nat.mod_two_eq_zero_or_one v with h | h <;> simp [h]

end Z2Col

namespace FpCol

theorem toFun_nil (r : Nat) : toFun [] r = 0 := rfl

theorem toFun_cons (k v : Nat) (l : List (Nat × Nat)) (r : Nat) :
    toFun ((k, v) :: l) r = if k = r then v else toFun l r := by
  by_cases h : k = r <;> simp [toFun, List.find?, h]

theorem toFun_eq_zero_of_forall_lt (l : List (Nat × Nat)) (r : Nat)
    (h : ∀ c ∈ l, r < c.1) : toFun l r = 0 := by
  induction l with
  | nil => rfl
  | cons c cs ih =>
    obtain ⟨k, v⟩ := c
    rw [toFun_cons]
    have := h (k, v) (List.mem_cons_self _ _)
    rw [if_neg (by simp at this; omega)]
    exact ih (fun c hc => h c (List.mem_cons_of_mem _ hc))

theorem sortedKeys_cons {c : Nat × Nat} {l : List (Nat × Nat)} :
    SortedKeys (c :: l) ↔ (∀ d ∈ l, c.1 < d.1) ∧ SortedKeys l := by
  unfold SortedKeys
  exact List.pairwise_cons

theorem merge_both_zero {sc tc : Nat × Nat} {p cT cS : Nat} (ts ss : List (Nat × Nat))
    (h : sc.1 = tc.1) (hv : (cT * tc.2 + cS * sc.2) % p = 0) :
    merge p cT cS (tc :: ts) (sc :: ss) = merge p cT cS ts ss := by
  rw [merge, if_pos h]
  simp [hv]

theorem merge_both_pos {sc tc : Nat × Nat} {p cT cS : Nat} (ts ss : List (Nat × Nat))
    (h : sc.1 = tc.1) (hv : (cT * tc.2 + cS * sc.2) % p ≠ 0) :
    merge p cT cS (tc :: ts) (sc :: ss) =
      (tc.1, (cT * tc.2 + cS * sc.2) % p) :: merge p cT cS ts ss := by
  rw [merge, if_pos h]
  simp [hv]

theorem merge_src_zero {sc tc : Nat × Nat} {p cT cS : Nat} (ts ss : List (Nat × Nat))
    (h : sc.1 < tc.1) (hv : (cS * sc.2) % p = 0) :
    merge p cT cS (tc :: ts) (sc :: ss) = merge p cT cS (tc :: ts) ss := by
  rw [merge, if_neg (by omega), if_pos h]
  simp [hv]

theorem merge_src_pos {sc tc : Nat × Nat} {p cT cS : Nat} (ts ss : List (Nat × Nat))
    (h : sc.1 < tc.1) (hv : (cS * sc.2) % p ≠ 0) :
    merge p cT cS (tc :: ts) (sc :: ss) =
      (sc.1, (cS * sc.2) % p) :: merge p cT cS (tc :: ts) ss := by
  rw [merge, if_neg (by omega), if_pos h]
  simp [hv]

theorem merge_tgt_zero {sc tc : Nat × Nat} {p cT cS : Nat} (ts ss : List (Nat × Nat))
    (h : tc.1 < sc.1) (hv : (cT * tc.2) % p = 0) :
    merge p cT cS (tc :: ts) (sc :: ss) = merge p cT cS ts (sc :: ss) := by
  rw [merge, if_neg (by omega), if_neg (by omega)]
  simp [hv]

theorem merge_tgt_pos {sc tc : Nat × Nat} {p cT cS : Nat} (ts ss : List (Nat × Nat))
    (h : tc.1 < sc.1) (hv : (cT * tc.2) % p ≠ 0) :
    merge p cT cS (tc :: ts) (sc :: ss) =
      (tc.1, (cT * tc.2) % p) :: merge p cT cS ts (sc :: ss) := by
  rw [merge, if_neg (by omega), if_neg (by omega)]
  simp [hv]

theorem merge_nil_cons_zero {sc : Nat × Nat} {p cT cS : Nat} (ss : List (Nat × Nat))
    (hv : (cS * sc.2) % p = 0) :
    merge p cT cS [] (sc :: ss) = merge p cT cS [] ss := by
  rw [merge]
  simp [hv]

theorem merge_nil_cons_pos {sc : Nat × Nat} {p cT cS : Nat} (ss : List (Nat × Nat))
    (hv : (cS * sc.2) % p ≠ 0) :
    merge p cT cS [] (sc :: ss) = (sc.1, (cS * sc.2) % p) :: merge p cT cS [] ss := by
  rw [merge]
  simp [hv]

theorem merge_cons_nil_zero {tc : Nat × Nat} {p cT cS : Nat} (ts : List (Nat × Nat))
    (hv : (cT * tc.2) % p = 0) :
    merge p cT cS (tc :: ts) [] = merge p cT cS ts [] := by
  rw [merge]
  simp [hv]

theorem merge_cons_nil_pos {tc : Nat × Nat} {p cT cS : Nat} (ts : List (Nat × Nat))
    (hv : (cT * tc.2) % p ≠ 0) :
    merge p cT cS (tc :: ts) [] = (tc.1, (cT * tc.2) % p) :: merge p cT cS ts [] := by
  rw [merge]
  simp [hv]

theorem merge_nil_nil (p cT cS : Nat) : merge p cT cS [] [] = [] := by
  rw [merge]

theorem mem_merge_keys (p cT cS : Nat) : ∀ t s : List (Nat × Nat), ∀ c ∈ merge p cT cS t s,
    (∃ d ∈ t, d.1 = c.1) ∨ ∃ d ∈ s, d.1 = c.1 := by
  intro t s
  induction t, s using merge.induct p cT cS with
  | case1 tc ts sc ss hk v hv ih =>
    intro c hc
    rw [merge_both_zero ts ss hk hv] at hc
    rcases ih c hc with ⟨d, hd, he⟩ | ⟨d, hd, he⟩
    · exact Or.inl ⟨d, List.mem_cons_of_mem _ hd, he⟩
    · exact Or.inr ⟨d, List.mem_cons_of_mem _ hd, he⟩
  | case2 tc ts sc ss hk v hv ih =>
    intro c hc
    rw [merge_both_pos ts ss hk hv] at hc
    rcases List.mem_cons.mp hc with rfl | hc2
    · exact Or.inl ⟨tc, List.mem_cons_self _ _, rfl⟩
    · rcases ih c hc2 with ⟨d, hd, he⟩ | ⟨d, hd, he⟩
      · exact Or.inl ⟨d, List.mem_cons_of_mem _ hd, he⟩
      · exact Or.inr ⟨d, List.mem_cons_of_mem _ hd, he⟩
  | case3 tc ts sc ss hk hlt v hv ih =>
    intro c hc
    rw [merge_src_zero ts ss hlt hv] at hc
    rcases ih c hc with ⟨d, hd, he⟩ | ⟨d, hd, he⟩
    · exact Or.inl ⟨d, hd, he⟩
    · exact Or.inr ⟨d, List.mem_cons_of_mem _ hd, he⟩
  | case4 tc ts sc ss hk hlt v hv ih =>
    intro c hc
    rw [merge_src_pos ts ss hlt hv] at hc
    rcases List.mem_cons.mp hc with rfl | hc2
    · exact Or.inr ⟨sc, List.mem_cons_self _ _, rfl⟩
    · rcases ih c hc2 with ⟨d, hd, he⟩ | ⟨d, hd, he⟩
      · exact Or.inl ⟨d, hd, he⟩
      · exact Or.inr ⟨d, List.mem_cons_of_mem _ hd, he⟩
  | case5 tc ts sc ss hk hlt v hv ih =>
    intro c hc
    rw [merge_tgt_zero ts ss (by omega) hv] at hc
    rcases ih c hc with ⟨d, hd, he⟩ | ⟨d, hd, he⟩
    · exact Or.inl ⟨d, List.mem_cons_of_mem _ hd, he⟩
    · exact Or.inr ⟨d, hd, he⟩
  | case6 tc ts sc ss hk hlt v hv ih =>
    intro c hc
    rw [merge_tgt_pos ts ss (by omega) hv] at hc
    rcases List.mem_cons.mp hc with rfl | hc2
    · exact Or.inl ⟨tc, List.mem_cons_self _ _, rfl⟩
    · rcases ih c hc2 with ⟨d, hd, he⟩ | ⟨d, hd, he⟩
      · exact Or.inl ⟨d, List.mem_cons_of_mem _ hd, he⟩
      · exact Or.inr ⟨d, hd, he⟩
  | case7 sc ss v hv ih =>
    intro c hc
    rw [merge_nil_cons_zero ss hv] at hc
    rcases ih c hc with ⟨d, hd, _⟩ | ⟨d, hd, he⟩
    · cases hd
    · exact Or.inr ⟨d, List.mem_cons_of_mem _ hd, he⟩
  | case8 sc ss v hv ih =>
    intro c hc
    rw [merge_nil_cons_pos ss hv] at hc
    rcases List.mem_cons.mp hc with rfl | hc2
    · exact Or.inr ⟨sc, List.mem_cons_self _ _, rfl⟩
    · rcases ih c hc2 with ⟨d, hd, _⟩ | ⟨d, hd, he⟩
      · cases hd
      · exact Or.inr ⟨d, List.mem_cons_of_mem _ hd, he⟩
  | case9 tc ts v hv ih =>
    intro c hc
    rw [merge_cons_nil_zero ts hv] at hc
    rcases ih c hc with ⟨d, hd, he⟩ | ⟨d, hd, _⟩
    · exact Or.inl ⟨d, List.mem_cons_of_mem _ hd, he⟩
    · cases hd
  | case10 tc ts v hv ih =>
    intro c hc
    rw [merge_cons_nil_pos ts hv] at hc
    rcases List.mem_cons.mp hc with rfl | hc2
    · exact Or.inl ⟨tc, List.mem_cons_self _ _, rfl⟩
    · rcases ih c hc2 with ⟨d, hd, he⟩ | ⟨d, hd, _⟩
      · exact Or.inl ⟨d, List.mem_cons_of_mem _ hd, he⟩
      · cases hd
  | case11 =>
    intro c hc
    rw [merge_nil_nil] at hc
    cases hc

theorem toFun_merge (p cT cS : Nat) : ∀ t s : List (Nat × Nat),
    SortedKeys t → SortedKeys s →
    ∀ r, toFun (merge p cT cS t s) r = (cT * toFun t r + cS * toFun s r) % p := by
  intro t s
  induction t, s using merge.induct p cT cS with
  | case1 tc ts sc ss hk v hv ih =>
    obtain ⟨tk, tv⟩ := tc
    obtain ⟨sk, sv⟩ := sc
    intro ht hs r
    obtain ⟨htb, ht2⟩ := sortedKeys_cons.mp ht
    obtain ⟨hsb, hs2⟩ := sortedKeys_cons.mp hs
    simp only at hk htb hsb
    rw [merge_both_zero ts ss hk hv]
    by_cases hr : tk = r
    · subst hr
      have hA : toFun ((tk, tv) :: ts) tk = tv := by rw [toFun_cons, if_pos rfl]
      have hB : toFun ((sk, sv) :: ss) tk = sv := by rw [toFun_cons, if_pos hk]
      rw [ih ht2 hs2 tk, hA, hB,
        toFun_eq_zero_of_forall_lt ts tk (fun c hc => htb c hc),
        toFun_eq_zero_of_forall_lt ss tk (fun c hc => hk ▸ hsb c hc)]
      simpa using hv.symm
    · have hA : toFun ((tk, tv) :: ts) r = toFun ts r := by rw [toFun_cons, if_neg hr]
      have hB : toFun ((sk, sv) :: ss) r = toFun ss r := by rw [toFun_cons, if_neg (by omega)]
      rw [hA, hB]
      exact ih ht2 hs2 r
  | case2 tc ts sc ss hk v hv ih =>
    obtain ⟨tk, tv⟩ := tc
    obtain ⟨sk, sv⟩ := sc
    intro ht hs r
    obtain ⟨htb, ht2⟩ := sortedKeys_cons.mp ht
    obtain ⟨hsb, hs2⟩ := sortedKeys_cons.mp hs
    simp only at hk htb hsb
    rw [merge_both_pos ts ss hk hv]
    by_cases hr : tk = r
    · subst hr
      have hA : toFun ((tk, tv) :: ts) tk = tv := by rw [toFun_cons, if_pos rfl]
      have hB : toFun ((sk, sv) :: ss) tk = sv := by rw [toFun_cons, if_pos hk]
      rw [toFun_cons, if_pos rfl, hA, hB]
    · have hA : toFun ((tk, tv) :: ts) r = toFun ts r := by rw [toFun_cons, if_neg hr]
      have hB : toFun ((sk, sv) :: ss) r = toFun ss r := by rw [toFun_cons, if_neg (by omega)]
      rw [toFun_cons, if_neg hr, hA, hB]
      exact ih ht2 hs2 r
  | case3 tc ts sc ss hk hlt v hv ih =>
    obtain ⟨tk, tv⟩ := tc
    obtain ⟨sk, sv⟩ := sc
    intro ht hs r
    obtain ⟨htb, ht2⟩ := sortedKeys_cons.mp ht
    obtain ⟨hsb, hs2⟩ := sortedKeys_cons.mp hs
    simp only at hk hlt htb hsb
    rw [merge_src_zero ts ss hlt hv]
    have hT0 : toFun ((tk, tv) :: ts) sk = 0 := by
      apply toFun_eq_zero_of_forall_lt
      intro c hc
      rcases List.mem_cons.mp hc with rfl | hc2
      · exact hlt
      · exact lt_trans hlt (htb c hc2)
    by_cases hr : sk = r
    · subst hr
      have hB : toFun ((sk, sv) :: ss) sk = sv := by rw [toFun_cons, if_pos rfl]
      rw [ih ht hs2 sk, hB, hT0,
        toFun_eq_zero_of_forall_lt ss sk (fun c hc => hsb c hc)]
      simpa using hv.symm
    · have hB : toFun ((sk, sv) :: ss) r = toFun ss r := by rw [toFun_cons, if_neg hr]
      rw [hB]
      exact ih ht hs2 r
  | case4 tc ts sc ss hk hlt v hv ih =>
    obtain ⟨tk, tv⟩ := tc
    obtain ⟨sk, sv⟩ := sc
    intro ht hs r
    obtain ⟨htb, ht2⟩ := sortedKeys_cons.mp ht
    obtain ⟨hsb, hs2⟩ := sortedKeys_cons.mp hs
    simp only at hk hlt htb hsb
    rw [merge_src_pos ts ss hlt hv]
    have hT0 : toFun ((tk, tv) :: ts) sk = 0 := by
      apply toFun_eq_zero_of_forall_lt
      intro c hc
      rcases List.mem_cons.mp hc with rfl | hc2
      · exact hlt
      · exact lt_trans hlt (htb c hc2)
    by_cases hr : sk = r
    · subst hr
      have hB : toFun ((sk, sv) :: ss) sk = sv := by rw [toFun_cons, if_pos rfl]
      rw [toFun_cons, if_pos rfl, hB, hT0]
      simp
    · have hB : toFun ((sk, sv) :: ss) r = toFun ss r := by rw [toFun_cons, if_neg hr]
      rw [toFun_cons, if_neg hr, hB]
      exact ih ht hs2 r
  | case5 tc ts sc ss hk hlt v hv ih =>
    obtain ⟨tk, tv⟩ := tc
    obtain ⟨sk, sv⟩ := sc
    intro ht hs r
    obtain ⟨htb, ht2⟩ := sortedKeys_cons.mp ht
    obtain ⟨hsb, hs2⟩ := sortedKeys_cons.mp hs
    simp only at hk hlt htb hsb
    have hgt : tk < sk := by omega
    rw [merge_tgt_zero ts ss hgt hv]
    have hS0 : toFun ((sk, sv) :: ss) tk = 0 := by
      apply toFun_eq_zero_of_forall_lt
      intro c hc
      rcases List.mem_cons.mp hc with rfl | hc2
      · exact hgt
      · exact lt_trans hgt (hsb c hc2)
    by_cases hr : tk = r
    · subst hr
      have hA : toFun ((tk, tv) :: ts) tk = tv := by rw [toFun_cons, if_pos rfl]
      rw [ih ht2 hs tk, hA, hS0,
        toFun_eq_zero_of_forall_lt ts tk (fun c hc => htb c hc)]
      simpa using hv.symm
    · have hA : toFun ((tk, tv) :: ts) r = toFun ts r := by rw [toFun_cons, if_neg hr]
      rw [hA]
      exact ih ht2 hs r
  | case6 tc ts sc ss hk hlt v hv ih =>
    obtain ⟨tk, tv⟩ := tc
    obtain ⟨sk, sv⟩ := sc
    intro ht hs r
    obtain ⟨htb, ht2⟩ := sortedKeys_cons.mp ht
    obtain ⟨hsb, hs2⟩ := sortedKeys_cons.mp hs
    simp only at hk hlt htb hsb
    have hgt : tk < sk := by omega
    rw [merge_tgt_pos ts ss hgt hv]
    have hS0 : toFun ((sk, sv) :: ss) tk = 0 := by
      apply toFun_eq_zero_of_forall_lt
      intro c hc
      rcases List.mem_cons.mp hc with rfl | hc2
      · exact hgt
      · exact lt_trans hgt (hsb c hc2)
    by_cases hr : tk = r
    · subst hr
      have hA : toFun ((tk, tv) :: ts) tk = tv := by rw [toFun_cons, if_pos rfl]
      rw [toFun_cons, if_pos rfl, hA, hS0]
      simp
    · have hA : toFun ((tk, tv) :: ts) r = toFun ts r := by rw [toFun_cons, if_neg hr]
      rw [toFun_cons, if_neg hr, hA]
      exact ih ht2 hs r
  | case7 sc ss v hv ih =>
    obtain ⟨sk, sv⟩ := sc
    intro ht hs r
    obtain ⟨hsb, hs2⟩ := sortedKeys_cons.mp hs
    simp only at hsb
    rw [merge_nil_cons_zero ss hv]
    by_cases hr : sk = r
    · subst hr
      have hB : toFun ((sk, sv) :: ss) sk = sv := by rw [toFun_cons, if_pos rfl]
      rw [ih ht hs2 sk, hB, toFun_nil,
        toFun_eq_zero_of_forall_lt ss sk (fun c hc => hsb c hc)]
      simpa using hv.symm
    · have hB : toFun ((sk, sv) :: ss) r = toFun ss r := by rw [toFun_cons, if_neg hr]
      rw [hB]
      exact ih ht hs2 r
  | case8 sc ss v hv ih =>
    obtain ⟨sk, sv⟩ := sc
    intro ht hs r
    obtain ⟨hsb, hs2⟩ := sortedKeys_cons.mp hs
    simp only at hsb
    rw [merge_nil_cons_pos ss hv]
    by_cases hr : sk = r
    · subst hr
      have hB : toFun ((sk, sv) :: ss) sk = sv := by rw [toFun_cons, if_pos rfl]
      rw [toFun_cons, if_pos rfl, hB, toFun_nil]
      simp
    · have hB : toFun ((sk, sv) :: ss) r = toFun ss r := by rw [toFun_cons, if_neg hr]
      rw [toFun_cons, if_neg hr, hB]
      exact ih ht hs2 r
  | case9 tc ts v hv ih =>
    obtain ⟨tk, tv⟩ := tc
    intro ht hs r
    obtain ⟨htb, ht2⟩ := sortedKeys_cons.mp ht
    simp only at htb
    rw [merge_cons_nil_zero ts hv]
    by_cases hr : tk = r
    · subst hr
      have hA : toFun ((tk, tv) :: ts) tk = tv := by rw [toFun_cons, if_pos rfl]
      rw [ih ht2 hs tk, hA, toFun_nil,
        toFun_eq_zero_of_forall_lt ts tk (fun c hc => htb c hc)]
      simpa using hv.symm
    · have hA : toFun ((tk, tv) :: ts) r = toFun ts r := by rw [toFun_cons, if_neg hr]
      rw [hA]
      exact ih ht2 hs r
  | case10 tc ts v hv ih =>
    obtain ⟨tk, tv⟩ := tc
    intro ht hs r
    obtain ⟨htb, ht2⟩ := sortedKeys_cons.mp ht
    simp only at htb
    rw [merge_cons_nil_pos ts hv]
    by_cases hr : tk = r
    · subst hr
      have hA : toFun ((tk, tv) :: ts) tk = tv := by rw [toFun_cons, if_pos rfl]
      rw [toFun_cons, if_pos rfl, hA, toFun_nil]
      simp
    · have hA : toFun ((tk, tv) :: ts) r = toFun ts r := by rw [toFun_cons, if_neg hr]
      rw [toFun_cons, if_neg hr, hA]
      exact ih ht2 hs r
  | case11 =>
    intro _ _ r
    rw [merge_nil_nil]
    simp [toFun_nil]

theorem sortedKeys_merge (p cT cS : Nat) : ∀ t s : List (Nat × Nat),
    SortedKeys t → SortedKeys s → SortedKeys (merge p cT cS t s) := by
  intro t s
  induction t, s using merge.induct p cT cS with
  | case1 tc ts sc ss hk v hv ih =>
    intro ht hs
    rw [merge_both_zero ts ss hk hv]
    exact ih (sortedKeys_cons.mp ht).2 (sortedKeys_cons.mp hs).2
  | case2 tc ts sc ss hk v hv ih =>
    intro ht hs
    obtain ⟨htb, ht2⟩ := sortedKeys_cons.mp ht
    obtain ⟨hsb, hs2⟩ := sortedKeys_cons.mp hs
    rw [merge_both_pos ts ss hk hv]
    refine sortedKeys_cons.mpr ⟨?_, ih ht2 hs2⟩
    intro d hd
    rcases mem_merge_keys p cT cS ts ss d hd with ⟨c, hc, he⟩ | ⟨c, hc, he⟩
    · exact he ▸ htb c hc
    · have := hsb c hc
      simp only at *
      omega
  | case3 tc ts sc ss hk hlt v hv ih =>
    intro ht hs
    rw [merge_src_zero ts ss hlt hv]
    exact ih ht (sortedKeys_cons.mp hs).2
  | case4 tc ts sc ss hk hlt v hv ih =>
    intro ht hs
    obtain ⟨htb, ht2⟩ := sortedKeys_cons.mp ht
    obtain ⟨hsb, hs2⟩ := sortedKeys_cons.mp hs
    rw [merge_src_pos ts ss hlt hv]
    refine sortedKeys_cons.mpr ⟨?_, ih ht hs2⟩
    intro d hd
    rcases mem_merge_keys p cT cS (tc :: ts) ss d hd with ⟨c, hc, he⟩ | ⟨c, hc, he⟩
    · rcases List.mem_cons.mp hc with rfl | hc2
      · simp only at *
        omega
      · have := htb c hc2
        simp only at *
        omega
    · have := hsb c hc
      simp only at *
      omega
  | case5 tc ts sc ss hk hlt v hv ih =>
    intro ht hs
    rw [merge_tgt_zero ts ss (by omega) hv]
    exact ih (sortedKeys_cons.mp ht).2 hs
  | case6 tc ts sc ss hk hlt v hv ih =>
    intro ht hs
    obtain ⟨htb, ht2⟩ := sortedKeys_cons.mp ht
    obtain ⟨hsb, hs2⟩ := sortedKeys_cons.mp hs
    rw [merge_tgt_pos ts ss (by omega) hv]
    refine sortedKeys_cons.mpr ⟨?_, ih ht2 hs⟩
    intro d hd
    rcases mem_merge_keys p cT cS ts (sc :: ss) d hd with ⟨c, hc, he⟩ | ⟨c, hc, he⟩
    · exact he ▸ htb c hc
    · rcases List.mem_cons.mp hc with rfl | hc2
      · simp only at *
        omega
      · have := hsb c hc2
        simp only at *
        omega
  | case7 sc ss v hv ih =>
    intro ht hs
    rw [merge_nil_cons_zero ss hv]
    exact ih ht (sortedKeys_cons.mp hs).2
  | case8 sc ss v hv ih =>
    intro ht hs
    obtain ⟨hsb, hs2⟩ := sortedKeys_cons.mp hs
    rw [merge_nil_cons_pos ss hv]
    refine sortedKeys_cons.mpr ⟨?_, ih ht hs2⟩
    intro d hd
    rcases mem_merge_keys p cT cS [] ss d hd with ⟨c, hc, _⟩ | ⟨c, hc, he⟩
    · cases hc
    · have := hsb c hc
      simp only at *
      omega
  | case9 tc ts v hv ih =>
    intro ht hs
    rw [merge_cons_nil_zero ts hv]
    exact ih (sortedKeys_cons.mp ht).2 hs
  | case10 tc ts v hv ih =>
    intro ht hs
    obtain ⟨htb, ht2⟩ := sortedKeys_cons.mp ht
    rw [merge_cons_nil_pos ts hv]
    refine sortedKeys_cons.mpr ⟨?_, ih ht2 hs⟩
    intro d hd
    rcases mem_merge_keys p cT cS ts [] d hd with ⟨c, hc, he⟩ | ⟨c, hc, _⟩
    · exact he ▸ htb c hc
    · cases hc
  | case11 =>
    intro _ _
    rw [merge_nil_nil]
    exact List.Pairwise.nil

theorem valuesOk_merge (p cT cS : Nat) (hp : 0 < p) : ∀ t s : List (Nat × Nat),
    ValuesOk p (merge p cT cS t s) := by
  intro t s
  induction t, s using merge.induct p cT cS with
  | case1 tc ts sc ss hk v hv ih =>
    rw [merge_both_zero ts ss hk hv]; exact ih
  | case2 tc ts sc ss hk v hv ih =>
    rw [merge_both_pos ts ss hk hv]
    intro c hc
    rcases List.mem_cons.mp hc with rfl | hc2
    · exact ⟨hv, Nat.mod_lt _ hp⟩
    · exact ih c hc2
  | case3 tc ts sc ss hk hlt v hv ih =>
    rw [merge_src_zero ts ss hlt hv]; exact ih
  | case4 tc ts sc ss hk hlt v hv ih =>
    rw [merge_src_pos ts ss hlt hv]
    intro c hc
    rcases List.mem_cons.mp hc with rfl | hc2
    · exact ⟨hv, Nat.mod_lt _ hp⟩
    · exact ih c hc2
  | case5 tc ts sc ss hk hlt v hv ih =>
    rw [merge_tgt_zero ts ss (by omega) hv]; exact ih
  | case6 tc ts sc ss hk hlt v hv ih =>
    rw [merge_tgt_pos ts ss (by omega) hv]
    intro c hc
    rcases List.mem_cons.mp hc with rfl | hc2
    · exact ⟨hv, Nat.mod_lt _ hp⟩
    · exact ih c hc2
  | case7 sc ss v hv ih =>
    rw [merge_nil_cons_zero ss hv]; exact ih
  | case8 sc ss v hv ih =>
    rw [merge_nil_cons_pos ss hv]
    intro c hc
    rcases List.mem_cons.mp hc with rfl | hc2
    · exact ⟨hv, Nat.mod_lt _ hp⟩
    · exact ih c hc2
  | case9 tc ts v hv ih =>
    rw [merge_cons_nil_zero ts hv]; exact ih
  | case10 tc ts v hv ih =>
    rw [merge_cons_nil_pos ts hv]
    intro c hc
    rcases List.mem_cons.mp hc with rfl | hc2
    · exact ⟨hv, Nat.mod_lt _ hp⟩
    · exact ih c hc2
  | case11 =>
    rw [merge_nil_nil]
    intro c hc
    cases hc

theorem eq_of_toFun_eq : ∀ l₁ l₂ : List (Nat × Nat), SortedKeys l₁ → SortedKeys l₂ →
    (∀ c ∈ l₁, c.2 ≠ 0) → (∀ c ∈ l₂, c.2 ≠ 0) →
    (∀ r, toFun l₁ r = toFun l₂ r) → l₁ = l₂ := by
  intro l₁
  induction l₁ with
  | nil =>
    intro l₂ _ _ _ hv2 hf
    rcases l₂ with _ | ⟨⟨k, v⟩, l⟩
    · rfl
    · exfalso
      have := hf k
      rw [toFun_nil, toFun_cons, if_pos rfl] at this
      exact hv2 (k, v) (List.mem_cons_self _ _) this.symm
  | cons c₁ t₁ ih =>
    obtain ⟨k₁, v₁⟩ := c₁
    intro l₂ h₁ h₂ hv1 hv2 hf
    rcases l₂ with _ | ⟨⟨k₂, v₂⟩, t₂⟩
    · exfalso
      have := hf k₁
      rw [toFun_nil, toFun_cons, if_pos rfl] at this
      exact hv1 (k₁, v₁) (List.mem_cons_self _ _) this
    · obtain ⟨hb₁, hs₁⟩ := sortedKeys_cons.mp h₁
      obtain ⟨hb₂, hs₂⟩ := sortedKeys_cons.mp h₂
      simp only at hb₁ hb₂
      rcases Nat.lt_trichotomy k₁ k₂ with hlt | heq | hgt
      · exfalso
        have := hf k₁
        rw [toFun_cons, if_pos rfl, toFun_cons, if_neg (by omega),
          toFun_eq_zero_of_forall_lt t₂ k₁ (fun c hc => lt_trans hlt (hb₂ c hc))] at this
        exact hv1 (k₁, v₁) (List.mem_cons_self _ _) this
      · subst heq
        have hv : v₁ = v₂ := by
          have := hf k₁
          rwa [toFun_cons, if_pos rfl, toFun_cons, if_pos rfl] at this
        subst hv
        have ht : t₁ = t₂ := by
          apply ih t₂ hs₁ hs₂ (fun c hc => hv1 c (List.mem_cons_of_mem _ hc))
            (fun c hc => hv2 c (List.mem_cons_of_mem _ hc))
          intro r
          by_cases hr : k₁ = r
          · subst hr
            rw [toFun_eq_zero_of_forall_lt t₁ k₁ (fun c hc => hb₁ c hc),
              toFun_eq_zero_of_forall_lt t₂ k₁ (fun c hc => hb₂ c hc)]
          · have := hf r
            rwa [toFun_cons, if_neg hr, toFun_cons, if_neg hr] at this
        rw [ht]
      · exfalso
        have := hf k₂
        rw [toFun_cons, if_neg (by omega), toFun_cons, if_pos rfl,
          toFun_eq_zero_of_forall_lt t₁ k₂ (fun c hc => lt_trans hgt (hb₁ c hc))] at this
        exact hv2 (k₂, v₂) (List.mem_cons_self _ _) this.symm

end FpCol

namespace FpCol

theorem toFun_lt_of_valuesOk {p : Nat} {l : List (Nat × Nat)} (hp : 0 < p)
    (h : ValuesOk p l) (r : Nat) : toFun l r < p := by
  rcases hf : l.find? (fun c => c.1 = r) with _ | c
  · unfold toFun
    rw [hf]
    exact hp
  · unfold toFun
    rw [hf]
    exact (h c (List.mem_of_find?_eq_some hf)).2

end FpCol

/-- Claim C8: over Z2, executing `target += source` twice in succession
restores the original target (symmetric-difference involution), and over a
prime field Fp, `target -= source` after `target += source` restores the
original target exactly. -/
theorem add_add_and_add_sub_roundtrip
    (t s : List Nat) (ht : t.Sorted (· < ·)) (hs : s.Sorted (· < ·))
    (p : Nat) (hp : p.Prime) (tf sf : List (Nat × Nat))
    (htk : FpCol.SortedKeys tf) (htv : FpCol.ValuesOk p tf)
    (hsk : FpCol.SortedKeys sf) (_hsv : FpCol.ValuesOk p sf) :
    Z2Col.addTo (Z2Col.addTo t s) s = t ∧
      FpCol.subFrom p (FpCol.addTo p tf sf) sf = tf := by
  constructor
  · rw [Z2Col.addTo_eq_symAdd, Z2Col.addTo_eq_symAdd]
    have h1 := Z2Col.sorted_symAdd t s ht hs
    apply sorted_eq_of_mem_iff (Z2Col.sorted_symAdd _ _ h1 hs) ht
    intro a
    rw [Z2Col.mem_symAdd _ _ h1 hs a, Z2Col.mem_symAdd _ _ ht hs a]
    by_cases h2 : a ∈ t <;> by_cases h3 : a ∈ s <;> simp [Xor', h2, h3]
  · have hp0 : 0 < p := hp.pos
    unfold FpCol.subFrom FpCol.addTo
    have hA : FpCol.SortedKeys (FpCol.merge p 1 1 tf sf) :=
      FpCol.sortedKeys_merge p 1 1 tf sf htk hsk
    apply FpCol.eq_of_toFun_eq _ _
      (FpCol.sortedKeys_merge p 1 (p - 1) _ sf hA hsk) htk
      (fun c hc => (FpCol.valuesOk_merge p 1 (p - 1) hp0 _ sf c hc).1)
      (fun c hc => (htv c hc).1)
    intro r
    rw [FpCol.toFun_merge p 1 (p - 1) _ sf hA hsk r,
      FpCol.toFun_merge p 1 1 tf sf htk hsk r]
    simp only [Nat.one_mul]
    have htfr : FpCol.toFun tf r < p := FpCol.toFun_lt_of_valuesOk hp0 htv r
    set a := FpCol.toFun tf r with ha
    set b := FpCol.toFun sf r with hb
    have hstep : b + (p - 1) * b = p * b := by
      have hpp : 1 + (p - 1) = p := by omega
      calc b + (p - 1) * b = (1 + (p - 1)) * b := by ring
        _ = p * b := by rw [hpp]
    calc ((a + b) % p + (p - 1) * b) % p = (a + b + (p - 1) * b) % p := Nat.mod_add_mod _ _ _
      _ = (a + p * b) % p := by rw [Nat.add_assoc, hstep]
      _ = a % p := Nat.add_mul_mod_self_left a p b
      _ = a := Nat.mod_eq_of_lt htfr

theorem add_add_and_add_sub_roundtrip_witness :
    Z2Col.addTo (Z2Col.addTo [1, 2] [2, 3]) [2, 3] = [1, 2] ∧
      FpCol.subFrom 5 (FpCol.addTo 5 [(0, 2), (3, 4)] [(0, 4), (1, 1)]) [(0, 4), (1, 1)] =
        [(0, 2), (3, 4)] :=
  add_add_and_add_sub_roundtrip [1, 2] [2, 3] (by decide) (by decide) 5 (by norm_num)
    [(0, 2), (3, 4)] [(0, 4), (1, 1)] (by unfold FpCol.SortedKeys; decide)
    (by unfold FpCol.ValuesOk; decide) (by unfold FpCol.SortedKeys; decide)
    (by unfold FpCol.ValuesOk; decide)

theorem cons_set_perm {α : Type} : ∀ (t : List α) (m : Nat) (h : m < t.length) (a : α),
    List.Perm (t[m] :: t.set m a) (a :: t) := by
  intro t
  induction t with
  | nil => intro m h; cases h
  | cons b u ih =>
    intro m h a
    cases m with
    | zero => exact List.Perm.swap a b u
    | succ k =>
      have hk : k < u.length := by simpa using h
      have h1 : List.Perm (u.get ⟨k, hk⟩ :: b :: u.set k a) (b :: u.get ⟨k, hk⟩ :: u.set k a) :=
        List.Perm.swap b _ _
      have h2 : List.Perm (b :: u.get ⟨k, hk⟩ :: u.set k a) (b :: a :: u) :=
        (ih k hk a).cons b
      have h3 : List.Perm (b :: a :: u) (a :: b :: u) := List.Perm.swap a b u
      exact (h1.trans h2).trans h3

theorem set_set_perm {α : Type} : ∀ (l : List α) (i j : Nat) (hi : i < l.length)
    (hj : j < l.length), List.Perm ((l.set i l[j]).set j l[i]) l := by
  intro l
  induction l with
  | nil => intro i j hi; cases hi
  | cons x xs ih =>
    intro i j hi hj
    cases i with
    | zero =>
      cases j with
      | zero => simp
      | succ m =>
        have hm : m < xs.length := by simpa using hj
        have h1 : ((x :: xs).set 0 ((x :: xs).get ⟨m + 1, hj⟩)).set (m + 1) x
            = xs.get ⟨m, hm⟩ :: xs.set m x := rfl
        exact h1 ▸ cons_set_perm xs m hm x
    | succ k =>
      cases j with
      | zero =>
        have hk : k < xs.length := by simpa using hi
        have h1 : ((x :: xs).set (k + 1) x).set 0 ((x :: xs).get ⟨k + 1, hi⟩)
            = xs.get ⟨k, hk⟩ :: xs.set k x := rfl
        exact h1 ▸ cons_set_perm xs k hk x
      | succ m =>
        have hk : k < xs.length := by simpa using hi
        have hm : m < xs.length := by simpa using hj
        have h1 : ((x :: xs).set (k + 1) ((x :: xs).get ⟨m + 1, hj⟩)).set (m + 1)
              ((x :: xs).get ⟨k + 1, hi⟩)
            = x :: (xs.set k (xs.get ⟨m, hm⟩)).set m (xs.get ⟨k, hk⟩) := rfl
        exact h1 ▸ (ih k m hk hm).cons x

theorem set_getElem_self_eq {α : Type} : ∀ (l : List α) (i : Nat) (h : i < l.length),
    l.set i l[i] = l := by
  intro l
  induction l with
  | nil => intro i hi; cases hi
  | cons x xs ih =>
    intro i hi
    cases i with
    | zero => rfl
    | succ k =>
      have hk : k < xs.length := by simpa using hi
      simp only [List.set, List.getElem_cons_succ, List.cons.injEq, true_and]
      exact ih k hk

namespace Chain

theorem pivotsDistinct_combine (s : State)
    (f : List (Nat × Nat) → List (Nat × Nat) → List (Nat × Nat)) (tgt src : Nat)
    (h : pivotsDistinct s) : pivotsDistinct (combine s f tgt src) := by
  rcases ht : s.cols[tgt]? with _ | t
  · simp only [combine, ht]
    exact h
  rcases hc : s.cols[src]? with _ | c
  · simp only [combine, ht, hc]
    exact h
  obtain ⟨htlen, hteq⟩ := List.getElem?_eq_some.mp ht
  obtain ⟨hclen, hceq⟩ := List.getElem?_eq_some.mp hc
  have hmtlen : tgt < (s.cols.map (·.pivot)).length := by simpa using htlen
  have hmclen : src < (s.cols.map (·.pivot)).length := by simpa using hclen
  have hmt : (s.cols.map (·.pivot))[tgt] = t.pivot := by
    rw [List.getElem_map, hteq]
  have hmc : (s.cols.map (·.pivot))[src] = c.pivot := by
    rw [List.getElem_map, hceq]
  by_cases hz : isNonZeroAt (f t.content c.content) t.pivot = true
  · have hcols : (combine s f tgt src).cols
        = s.cols.set tgt { t with content := f t.content c.content } := by
      simp only [combine, ht, hc]
      rw [if_pos hz]
    unfold pivotsDistinct
    rw [hcols]
    have e1 : (s.cols.set tgt { t with content := f t.content c.content }).map (·.pivot)
        = (s.cols.map (·.pivot)).set tgt t.pivot := by
      rw [List.map_set]
    rw [e1, ← hmt, set_getElem_self_eq _ tgt hmtlen]
    exact h
  · have hcols : (combine s f tgt src).cols
        = (s.cols.set tgt { t with content := f t.content c.content, pivot := c.pivot }).set
            src { c with pivot := t.pivot } := by
      simp only [combine, ht, hc]
      rw [if_neg hz]
    unfold pivotsDistinct
    rw [hcols]
    have e1 : ((s.cols.set tgt { t with content := f t.content c.content, pivot := c.pivot }).set
          src { c with pivot := t.pivot }).map (·.pivot)
        = ((s.cols.map (·.pivot)).set tgt c.pivot).set src t.pivot := by
      rw [List.map_set, List.map_set]
    rw [e1, ← hmt, ← hmc]
    exact ((set_set_perm _ tgt src hmtlen hmclen).nodup_iff).mpr h

theorem pivotsDistinct_applyOp (p : Nat) (s : State) (op : Op)
    (h : pivotsDistinct s) : pivotsDistinct (applyOp p s op) := by
  cases op with
  | add tgt src => exact pivotsDistinct_combine s _ tgt src h
  | mulAddTargetScaled v tgt src => exact pivotsDistinct_combine s _ tgt src h
  | mulAddSourceScaled v tgt src => exact pivotsDistinct_combine s _ tgt src h

/-- Claim C1: for a matrix of chain columns sharing one pivot-to-column
dictionary, after any finite sequence of chain-column additions
(`operator+=` or either `multiply_and_add` between chain columns), no two
distinct live chain columns report the same pivot: the dictionary-and-pivot
swap performed when an addition zeroes the target's original pivot entry
preserves the at-most-one-column-per-pivot invariant. -/
theorem pivot_uniqueness_invariant (p : Nat) (ops : List Op) (s : State)
    (h : pivotsDistinct s) : pivotsDistinct (applyOps p ops s) := by
  induction ops generalizing s with
  | nil => exact h
  | cons op rest ih =>
    have hstep : applyOps p (op :: rest) s = applyOps p rest (applyOp p s op) := rfl
    rw [hstep]
    exact ih _ (pivotsDistinct_applyOp p s op h)

theorem pivot_uniqueness_invariant_witness :
    Chain.pivotsDistinct
      (applyOps 2 [Op.add 0 1, Op.mulAddSourceScaled 1 1 0]
        { cols := [⟨[(0, 1), (1, 1)], 1, -1⟩, ⟨[(1, 1)], 2, -1⟩], dict := fun _ => 0 }) :=
  pivot_uniqueness_invariant 2 [Op.add 0 1, Op.mulAddSourceScaled 1 1 0]
    { cols := [⟨[(0, 1), (1, 1)], 1, -1⟩, ⟨[(1, 1)], 2, -1⟩], dict := fun _ => 0 }
    (by unfold pivotsDistinct; decide)

end Chain

namespace MultiField

theorem mod_eq_sub_of_lt_two_mul {N x : Nat} (h1 : N ≤ x) (h2 : x < 2 * N) :
    x % N = x - N := by
  rw [Nat.mod_eq_sub_mod h1]
  exact Nat.mod_eq_of_lt (by omega)

theorem fAdd_spec (N a v : Nat) (hN : N < u32) (ha : a < N) (hv : v < N) :
    fAdd N a v = (a + v) % N ∧ fAdd N a v < N := by
  have hN' : N < 4294967296 := by simpa [u32] using hN
  simp only [fAdd, uadd, usub, u32]
  by_cases hov : 4294967296 - 1 - a < v
  · rw [if_pos hov]
    have h1 : (a + v) % 4294967296 = a + v - 4294967296 := by omega
    rw [h1]
    have h2 : (a + v - 4294967296 + 4294967296 - N) % 4294967296 = a + v - N := by omega
    rw [h2]
    have h3 : (a + v) % N = a + v - N := mod_eq_sub_of_lt_two_mul (by omega) (by omega)
    omega
  · rw [if_neg hov]
    by_cases hge : N ≤ a + v
    · rw [if_pos hge]
      have h3 : (a + v) % N = a + v - N := mod_eq_sub_of_lt_two_mul hge (by omega)
      omega
    · rw [if_neg hge]
      have h3 : (a + v) % N = a + v := Nat.mod_eq_of_lt (by omega)
      omega

theorem fSub_spec (N a v : Nat) (hN : N < u32) (ha : a < N) (hv : v < N) :
    fSub N a v = (a + N - v) % N ∧ fSub N a v < N := by
  have hN' : N < 4294967296 := by simpa [u32] using hN
  simp only [fSub, uadd, usub, u32]
  by_cases hlt : a < v
  · rw [if_pos hlt]
    have hR : (a + N - v) % N = a + N - v := Nat.mod_eq_of_lt (by omega)
    rw [hR]
    omega
  · rw [if_neg hlt]
    have hR : (a + N - v) % N = a - v := by
      rw [Nat.mod_eq_sub_mod (by omega)]
      have he : a + N - v - N = a - v := by omega
      rw [he]
      exact Nat.mod_eq_of_lt (by omega)
    omega

theorem mulStep_spec (N res b : Nat) (hN : N < u32) (hres : res < N) (hb : b < N) :
    mulStep N res b = (res + b) % N ∧ mulStep N res b < N := by
  have hN' : N < 4294967296 := by simpa [u32] using hN
  simp only [mulStep, uadd, usub, u32]
  by_cases h : N - res ≤ b
  · rw [if_pos h]
    have h1 : (res + 4294967296 - N) % 4294967296 = res + 4294967296 - N := by omega
    rw [h1]
    have h2 : (res + 4294967296 - N + b) % 4294967296 = res + b - N := by omega
    rw [h2]
    have h3 : (res + b) % N = res + b - N := mod_eq_sub_of_lt_two_mul (by omega) (by omega)
    omega
  · rw [if_neg h]
    have h1 : (res + b) % 4294967296 = res + b := by omega
    rw [h1]
    have h3 : (res + b) % N = res + b := Nat.mod_eq_of_lt (by omega)
    omega

theorem dblStep_spec (N b : Nat) (hN : N < u32) (hb : b < N) :
    dblStep N b = (2 * b) % N ∧ dblStep N b < N := by
  have hN' : N < 4294967296 := by simpa [u32] using hN
  simp only [dblStep, uadd, usub, u32]
  by_cases h : N - b ≤ b
  · rw [if_pos h]
    have h1 : (b + 4294967296 - N) % 4294967296 = b + 4294967296 - N := by omega
    rw [h1]
    have h2 : (b + (b + 4294967296 - N)) % 4294967296 = 2 * b - N := by omega
    rw [h2]
    have h3 : (2 * b) % N = 2 * b - N := mod_eq_sub_of_lt_two_mul (by omega) (by omega)
    omega
  · rw [if_neg h]
    have h1 : (b + b) % 4294967296 = b + b := by omega
    rw [h1]
    have h3 : (2 * b) % N = 2 * b := Nat.mod_eq_of_lt (by omega)
    omega

theorem mulLoop_spec (N : Nat) (hN : N < u32) : ∀ a b res : Nat, b < N → res < N →
    mulLoop N a b res = (res + a * b) % N ∧ mulLoop N a b res < N := by
  intro a
  induction a using Nat.strong_induction_on with
  | _ a ih =>
    intro b res hb hres
    by_cases ha : a = 0
    · subst ha
      rw [mulLoop, if_pos rfl]
      constructor
      · simp [Nat.mod_eq_of_lt hres]
      · exact hres
    · rw [mulLoop, if_neg ha]
      obtain ⟨hbe, hblt⟩ := dblStep_spec N b hN hb
      by_cases hodd : a % 2 = 1
      · rw [if_pos hodd]
        obtain ⟨hre, hrlt⟩ := mulStep_spec N res b hN hres hb
        obtain ⟨hle, hllt⟩ := ih (a / 2) (Nat.div_lt_self (Nat.pos_of_ne_zero ha) (by omega))
          (dblStep N b) (mulStep N res b) hblt hrlt
        refine ⟨?_, hllt⟩
        rw [hle, hre, hbe]
        have hcong : ((res + b) % N + a / 2 * ((2 * b) % N)) % N
            = (res + b + a / 2 * (2 * b)) % N :=
          Nat.ModEq.add (Nat.mod_modEq _ _) (Nat.ModEq.mul_left _ (Nat.mod_modEq _ _))
        rw [hcong]
        have harith : res + b + a / 2 * (2 * b) = res + a * b := by
          have ha2 : 2 * (a / 2) + 1 = a := by omega
          calc res + b + a / 2 * (2 * b) = res + (2 * (a / 2) + 1) * b := by ring
            _ = res + a * b := by rw [ha2]
        rw [harith]
      · rw [if_neg hodd]
        obtain ⟨hle, hllt⟩ := ih (a / 2) (Nat.div_lt_self (Nat.pos_of_ne_zero ha) (by omega))
          (dblStep N b) res hblt hres
        refine ⟨?_, hllt⟩
        rw [hle, hbe]
        have hcong : (res + a / 2 * ((2 * b) % N)) % N = (res + a / 2 * (2 * b)) % N :=
          Nat.ModEq.add_left _ (Nat.ModEq.mul_left _ (Nat.mod_modEq _ _))
        rw [hcong]
        have harith : res + a / 2 * (2 * b) = res + a * b := by
          have ha2 : 2 * (a / 2) = a := by omega
          calc res + a / 2 * (2 * b) = res + 2 * (a / 2) * b := by ring
            _ = res + a * b := by rw [ha2]
        rw [harith]

theorem fMul_spec (N a b : Nat) (hN : N < u32) (ha : a < N) (hb : b < N) :
    fMul N a b = a * b % N ∧ fMul N a b < N := by
  have hN0 : 0 < N := by omega
  unfold fMul
  by_cases h : b < a
  · rw [if_pos h]
    obtain ⟨he, hl⟩ := mulLoop_spec N hN b a 0 ha hN0
    refine ⟨?_, hl⟩
    rw [he, Nat.zero_add, Nat.mul_comm]
  · rw [if_neg h]
    obtain ⟨he, hl⟩ := mulLoop_spec N hN a b 0 hb hN0
    refine ⟨?_, hl⟩
    rw [he, Nat.zero_add]

/-- Claim C5: for multi-field elements with stored values in
`[0, productOfAllCharacteristics_)`, `operator+=`, `operator-=` and
`operator*=` (through `_add`, `_substract` and `_multiply`, with unsigned
32-bit overflow in the carry branches modelled as arithmetic modulo `2^32`)
return the sum, difference and product modulo the characteristic, again in
`[0, productOfAllCharacteristics_)`. -/
theorem arithmetic_canonical (N a b : Nat) (hN : N < u32) (ha : a < N) (hb : b < N) :
    (fAdd N a b = (a + b) % N ∧ fAdd N a b < N) ∧
    (fSub N a b = (a + N - b) % N ∧ fSub N a b < N) ∧
    (fMul N a b = a * b % N ∧ fMul N a b < N) :=
  ⟨fAdd_spec N a b hN ha hb, fSub_spec N a b hN ha hb, fMul_spec N a b hN ha hb⟩

theorem arithmetic_canonical_witness :
    (fAdd 4000000000 3999999999 3999999998 = (3999999999 + 3999999998) % 4000000000 ∧
      fAdd 4000000000 3999999999 3999999998 < 4000000000) ∧
    (fSub 4000000000 3999999999 3999999998
        = (3999999999 + 4000000000 - 3999999998) % 4000000000 ∧
      fSub 4000000000 3999999999 3999999998 < 4000000000) ∧
    (fMul 4000000000 3999999999 3999999998
        = 3999999999 * 3999999998 % 4000000000 ∧
      fMul 4000000000 3999999999 3999999998 < 4000000000) :=
  arithmetic_canonical 4000000000 3999999999 3999999998 (by decide) (by decide) (by decide)

end MultiField

namespace BMat

theorem maxDimension_drop_bump : ∀ (l : List Nat) (d : Nat),
    maxDimension (dropAt (bumpAt l d) d) = maxDimension l := by
  intro l
  induction l with
  | nil =>
    intro d
    induction d with
    | zero => rfl
    | succ k ihk =>
      show maxDimension (0 :: dropAt (bumpAt [] k) k) = -1
      rw [maxDimension, ihk]
      simp [maxDimension]
  | cons c rest ih =>
    intro d
    cases d with
    | zero =>
      show maxDimension ((c + 1 - 1) :: rest) = maxDimension (c :: rest)
      norm_num
    | succ k =>
      show maxDimension (c :: dropAt (bumpAt rest k) k) = maxDimension (c :: rest)
      rw [maxDimension, maxDimension, ih k]

theorem insert_boundary_dim_toNat (b : List Nat) :
    ((if (-1 : Int) = -1 then (if b = [] then 0 else ((b.length - 1 : Nat) : Int)) else -1)).toNat
      = (if b = [] then 0 else b.length - 1) := by
  rw [if_pos rfl]
  by_cases hb : b = []
  · simp [hb]
  · simp [hb]

/-- Claim C3: with removable columns enabled, inserting a boundary with the
defaulted dimension (`insert_boundary(b)`) and then immediately calling
`remove_last()` returns the matrix to its pre-insertion state: the same
column count, the same column container, the same maximal dimension, and the
same row contents (hence the same row-emptiness state). -/
theorem insert_remove_roundtrip (s : State) (b : List Nat)
    (hcells : ∀ r c, c ∈ s.rows r → c < s.columns.length)
    (hhigh : ∀ r, s.columns.length ≤ r → s.rows r = []) :
    get_number_of_columns (remove_last (insert_boundary s b (-1))).2
        = get_number_of_columns s ∧
      (remove_last (insert_boundary s b (-1))).2.columns = s.columns ∧
      maxDimension (remove_last (insert_boundary s b (-1))).2.dimensions
        = maxDimension s.dimensions ∧
      ∀ r, (remove_last (insert_boundary s b (-1))).2.rows r = s.rows r := by
  have hlast : (insert_boundary s b (-1)).columns.getLast? =
      some { cells := b,
             dim := if (-1 : Int) = -1
               then (if b = [] then 0 else ((b.length - 1 : Nat) : Int)) else -1 } := by
    simp only [insert_boundary]
    exact List.getLast?_concat _
  have hcols : (insert_boundary s b (-1)).columns.dropLast = s.columns := by
    simp only [insert_boundary]
    exact List.dropLast_concat ..
  have hn : (insert_boundary s b (-1)).columns.length - 1 = s.columns.length := by
    simp [insert_boundary]
  have hstate : remove_last (insert_boundary s b (-1)) =
      (Z2Col.get_pivot b,
        { columns := (insert_boundary s b (-1)).columns.dropLast,
          rows := fun r => if r = (insert_boundary s b (-1)).columns.length - 1 then []
            else (((insert_boundary s b (-1)).rows r).filter
              (· ≠ (insert_boundary s b (-1)).columns.length - 1)),
          dimensions := dropAt (insert_boundary s b (-1)).dimensions
            ((if (-1 : Int) = -1
              then (if b = [] then 0 else ((b.length - 1 : Nat) : Int)) else -1)).toNat }) := by
    rw [remove_last, hlast]
  rw [hstate]
  dsimp only
  refine ⟨?_, ?_, ?_, ?_⟩
  · simp only [get_number_of_columns, hcols]
  · exact hcols
  · show maxDimension (dropAt (insert_boundary s b (-1)).dimensions _) = _
    rw [insert_boundary_dim_toNat b]
    show maxDimension
        (dropAt (bumpAt s.dimensions (if b = [] then 0 else b.length - 1))
          (if b = [] then 0 else b.length - 1)) = maxDimension s.dimensions
    exact maxDimension_drop_bump s.dimensions _
  · intro r
    rw [hn]
    by_cases hr : r = s.columns.length
    · rw [if_pos hr, hr]
      exact (hhigh s.columns.length (le_refl _)).symm
    · rw [if_neg hr]
      show (insertCellRows s.rows b s.columns.length r).filter (· ≠ s.columns.length)
          = s.rows r
      have hfilter : (s.rows r).filter (· ≠ s.columns.length) = s.rows r := by
        apply List.filter_eq_self.mpr
        intro a ha
        have hlt := hcells r a ha
        exact decide_eq_true (by omega)
      unfold insertCellRows
      by_cases hb : r ∈ b
      · rw [if_pos hb, List.filter_append, hfilter]
        have : ([s.columns.length].filter (· ≠ s.columns.length)) = [] := by simp
        rw [this, List.append_nil]
      · rw [if_neg hb]
        exact hfilter

theorem insert_remove_roundtrip_witness :
    (get_number_of_columns
          (remove_last (insert_boundary (State.mk [⟨[], 0⟩] (fun _ => []) [1]) [0] (-1))).2
        = get_number_of_columns (State.mk [⟨[], 0⟩] (fun _ => []) [1])) ∧
      ((remove_last (insert_boundary (State.mk [⟨[], 0⟩] (fun _ => []) [1]) [0] (-1))).2.columns
        = [⟨[], 0⟩]) ∧
      (maxDimension
          (remove_last (insert_boundary (State.mk [⟨[], 0⟩] (fun _ => []) [1]) [0] (-1))).2.dimensions
        = maxDimension [1]) ∧
      ∀ r, (remove_last (insert_boundary (State.mk [⟨[], 0⟩] (fun _ => []) [1]) [0] (-1))).2.rows r
        = (fun _ => ([] : List Nat)) r :=
  insert_remove_roundtrip (State.mk [⟨[], 0⟩] (fun _ => []) [1]) [0]
    (fun _ c hc => absurd hc (List.not_mem_nil c))
    (fun _ _ => rfl)

/-- Claim C9: `remove_last` on an empty boundary matrix (insertion cursor at
zero) returns the sentinel `-1` and leaves the whole matrix state
unchanged. -/
theorem remove_last_empty (s : State) (h : s.columns = []) :
    remove_last s = (-1, s) := by
  unfold remove_last
  rw [h]
  rfl

theorem remove_last_empty_witness :
    (State.mk [] (fun _ => []) []).columns = ([] : List Col) ∧
      remove_last (State.mk [] (fun _ => []) []) = (-1, State.mk [] (fun _ => []) []) :=
  ⟨rfl, remove_last_empty _ rfl⟩

end BMat

namespace SwapEngine

theorem map_eq_self_of {α : Type} (l : List α) (f : α → α) (h : ∀ a ∈ l, f a = a) :
    l.map f = l := by
  induction l with
  | nil => rfl
  | cons x xs ih =>
    rw [List.map_cons, h x (List.mem_cons_self _ _),
      ih (fun a ha => h a (List.mem_cons_of_mem _ ha))]

theorem transpose_transpose (r1 r2 x : Nat) : transpose r1 r2 (transpose r1 r2 x) = x := by
  unfold transpose
  split_ifs <;> omega

theorem requestSwap_WF (s : State) (r1 r2 : Nat) (h : WF s) :
    WF (requestSwap s r1 r2) := by
  obtain ⟨h1, h2, _, h4⟩ := h
  refine ⟨?_, ?_, ?_, ?_⟩
  · intro x
    show transpose r1 r2 (s.rowToIndex (s.indexToRow (transpose r1 r2 x))) = x
    rw [h1, transpose_transpose]
  · intro x
    show s.indexToRow (transpose r1 r2 (transpose r1 r2 (s.rowToIndex x))) = x
    rw [transpose_transpose, h2]
  · intro hfl
    cases hfl
  · exact h4

theorem rowToIndex_injective (s : State) (h : WF s) {a b : Nat}
    (he : s.rowToIndex a = s.rowToIndex b) : a = b := by
  have := congrArg s.indexToRow he
  rwa [h.2.1 a, h.2.1 b] at this

theorem orderRows_WF (s : State) (h : WF s) : WF (orderRows s) := by
  refine ⟨fun x => rfl, fun x => rfl, fun _ x => rfl, ?_⟩
  intro col hcol
  unfold orderRows at hcol
  simp only [List.mem_map] at hcol
  obtain ⟨col0, hcol0, rfl⟩ := hcol
  have hsorted0 : col0.Sorted (· < ·) := h.2.2.2 col0 hcol0
  have hnodup : ((col0.map s.rowToIndex).mergeSort (· ≤ ·)).Nodup := by
    apply (List.mergeSort_perm (col0.map s.rowToIndex) _).nodup_iff.mpr
    exact (hsorted0.nodup).map (fun a b he => rowToIndex_injective s h he)
  exact List.Sorted.lt_of_le (List.sorted_mergeSort' _) hnodup

theorem getD_map_nil (g : List Nat → List Nat) (l : List (List Nat)) (c : Nat)
    (hg : g [] = []) : (l.map g).getD c [] = g (l.getD c []) := by
  rw [List.getD_eq_getElem?_getD, List.getD_eq_getElem?_getD, List.getElem?_map]
  cases l[c]? <;> simp [hg]

theorem mem_relabeled (s : State) (h : WF s) (col : List Nat) (r : Nat) :
    (r ∈ (col.map s.rowToIndex).mergeSort (· ≤ ·)) ↔ s.indexToRow r ∈ col := by
  rw [List.mem_mergeSort, List.mem_map]
  constructor
  · rintro ⟨p, hp, he⟩
    have h2 : s.indexToRow (s.rowToIndex p) = s.indexToRow r := congrArg s.indexToRow he
    rw [h.2.1 p] at h2
    exact h2 ▸ hp
  · intro hp
    exact ⟨s.indexToRow r, hp, h.1 r⟩

/-- Claim C4: with the swap option active, every external read
(`get_column`, `get_row`, `get_pivot`, `is_zero_cell`) of a well-formed
matrix state observes row indices consistent with all previously requested
swaps: the read either first materializes the pending lazy permutation via
`_orderRows()` or translates the queried row index through `indexToRow_`,
and in all cases returns exactly what the fully materialized state returns —
never stale row identities. -/
theorem reads_see_materialized_state (s : State) (h : WF s) (c r : Nat) :
    get_column s c = get_column (orderRows s) c ∧
    get_row s r = get_row (orderRows s) r ∧
    get_pivot s c = get_pivot (orderRows s) c ∧
    is_zero_cell s c r = is_zero_cell (orderRows s) c r := by
  have hcols_id : s.rowSwapped = false → (orderRows s).columns = s.columns := by
    intro hfl
    show s.columns.map _ = s.columns
    apply map_eq_self_of
    intro col hcol
    have hid : col.map s.rowToIndex = col := by
      apply map_eq_self_of
      intro a _
      have := h.1 a
      rwa [h.2.2.1 hfl a] at this
    rw [hid]
    exact List.mergeSort_eq_self ((h.2.2.2 col hcol).imp le_of_lt)
  rcases hfl : s.rowSwapped with _ | _
  · refine ⟨?_, ?_, ?_, ?_⟩
    · show (if s.rowSwapped then orderRows s else s).columns.getD c []
        = (if (orderRows s).rowSwapped then orderRows (orderRows s) else orderRows s).columns.getD c []
      rw [hfl]
      show s.columns.getD c [] = (orderRows s).columns.getD c []
      rw [hcols_id hfl]
    · show rowCells (if s.rowSwapped then orderRows s else s).columns r
        = rowCells (if (orderRows s).rowSwapped then orderRows (orderRows s)
            else orderRows s).columns r
      rw [hfl]
      show rowCells s.columns r = rowCells (orderRows s).columns r
      rw [hcols_id hfl]
    · show Z2Col.get_pivot ((if s.rowSwapped then orderRows s else s).columns.getD c [])
        = Z2Col.get_pivot ((if (orderRows s).rowSwapped then orderRows (orderRows s)
            else orderRows s).columns.getD c [])
      rw [hfl]
      show Z2Col.get_pivot (s.columns.getD c [])
        = Z2Col.get_pivot ((orderRows s).columns.getD c [])
      rw [hcols_id hfl]
    · show (! (s.columns.getD c []).contains (s.indexToRow r))
        = (! ((orderRows s).columns.getD c []).contains ((orderRows s).indexToRow r))
      rw [hcols_id hfl, h.2.2.1 hfl r]
      rfl
  · refine ⟨?_, ?_, ?_, ?_⟩
    · show (if s.rowSwapped then orderRows s else s).columns.getD c []
        = (if (orderRows s).rowSwapped then orderRows (orderRows s) else orderRows s).columns.getD c []
      rw [hfl]
      rfl
    · show rowCells (if s.rowSwapped then orderRows s else s).columns r
        = rowCells (if (orderRows s).rowSwapped then orderRows (orderRows s)
            else orderRows s).columns r
      rw [hfl]
      rfl
    · show Z2Col.get_pivot ((if s.rowSwapped then orderRows s else s).columns.getD c [])
        = Z2Col.get_pivot ((if (orderRows s).rowSwapped then orderRows (orderRows s)
            else orderRows s).columns.getD c [])
      rw [hfl]
      rfl
    · show (! (s.columns.getD c []).contains (s.indexToRow r))
        = (! ((orderRows s).columns.getD c []).contains r)
      have hR : (orderRows s).columns.getD c []
          = ((s.columns.getD c []).map s.rowToIndex).mergeSort (· ≤ ·) := by
        show (s.columns.map _).getD c [] = _
        rw [getD_map_nil _ _ _ (by simp)]
      rw [hR]
      apply congrArg
      have e1 : (s.columns.getD c []).contains (s.indexToRow r)
          = decide (s.indexToRow r ∈ s.columns.getD c []) := List.elem_eq_mem _ _
      have e2 : (((s.columns.getD c []).map s.rowToIndex).mergeSort (· ≤ ·)).contains r
          = decide (r ∈ ((s.columns.getD c []).map s.rowToIndex).mergeSort (· ≤ ·)) :=
        List.elem_eq_mem _ _
      rw [e1, e2]
      simp only [decide_eq_decide]
      exact (mem_relabeled s h (s.columns.getD c []) r).symm

theorem reads_see_materialized_state_witness :
    get_column (State.mk [[0, 1], [1]] (transpose 0 1) (transpose 0 1) true) 0
        = get_column (orderRows (State.mk [[0, 1], [1]] (transpose 0 1) (transpose 0 1) true)) 0 ∧
      get_row (State.mk [[0, 1], [1]] (transpose 0 1) (transpose 0 1) true) 1
        = get_row (orderRows (State.mk [[0, 1], [1]] (transpose 0 1) (transpose 0 1) true)) 1 ∧
      get_pivot (State.mk [[0, 1], [1]] (transpose 0 1) (transpose 0 1) true) 0
        = get_pivot (orderRows (State.mk [[0, 1], [1]] (transpose 0 1) (transpose 0 1) true)) 0 ∧
      is_zero_cell (State.mk [[0, 1], [1]] (transpose 0 1) (transpose 0 1) true) 0 1
        = is_zero_cell (orderRows (State.mk [[0, 1], [1]] (transpose 0 1) (transpose 0 1) true)) 0 1 :=
  reads_see_materialized_state (State.mk [[0, 1], [1]] (transpose 0 1) (transpose 0 1) true)
    ⟨fun x => transpose_transpose 0 1 x, fun x => transpose_transpose 0 1 x,
      fun hfl => absurd hfl (by decide), by decide⟩ 0 1

end SwapEngine

namespace MultiField

theorem trialLoop_iff (fuel : Nat) : ∀ n i : Nat, n + 1 - i * i ≤ fuel → i % 6 = 5 →
    5 ≤ n → ¬ 2 ∣ n → ¬ 3 ∣ n →
    (∀ m, 5 ≤ m → m < i → m % 6 = 1 ∨ m % 6 = 5 → ¬ m ∣ n) →
    (trialLoop n i = true ↔
      ∀ m, i ≤ m → m * m ≤ n → m % 6 = 1 ∨ m % 6 = 5 → ¬ m ∣ n) := by
  induction fuel with
  | zero =>
    intro n i hfuel hi hn h2 h3 hb
    have hgt : n < i * i := by omega
    rw [trialLoop, if_neg (by omega)]
    simp only [true_iff]
    intro m him hm _ _
    have : i * i ≤ m * m := Nat.mul_le_mul him him
    omega
  | succ f ih =>
    intro n i hfuel hi hn h2 h3 hb
    have hi5 : 5 ≤ i := by omega
    by_cases hle : i * i ≤ n
    case neg =>
      rw [trialLoop, if_neg (by omega)]
      simp only [true_iff]
      intro m him hm _ _
      have : i * i ≤ m * m := Nat.mul_le_mul him him
      omega
    case pos =>
      rw [trialLoop, if_pos hle]
      by_cases hdiv : n % i = 0 ∨ n % (i + 2) = 0
      case pos =>
        rw [if_pos hdiv]
        simp only [Bool.false_eq_true, false_iff]
        push_neg
        rcases hdiv with h | h
        · exact ⟨i, le_refl i, hle, Or.inr hi, Nat.dvd_iff_mod_eq_zero.mpr h⟩
        · have hdvd2 : (i + 2) ∣ n := Nat.dvd_iff_mod_eq_zero.mpr h
          by_cases hle2 : (i + 2) * (i + 2) ≤ n
          · exact ⟨i + 2, by omega, hle2, Or.inl (by omega), hdvd2⟩
          · obtain ⟨c, hc⟩ := hdvd2
            rcases Nat.eq_zero_or_pos c with rfl | hcpos
            · simp at hc
              omega
            rcases Nat.lt_or_ge c 2 with hc1 | hc2
            · have hc1' : c = 1 := by omega
              subst hc1'
              have hni : n = i + 2 := by omega
              exact absurd hle (by nlinarith)
            · obtain ⟨q, hqp, hqc⟩ := Nat.exists_prime_and_dvd (show c ≠ 1 by omega)
              have hcn : c ∣ n := ⟨i + 2, by rw [hc]; ring⟩
              have hqn : q ∣ n := hqc.trans hcn
              have hq2 : q ≠ 2 := fun he => h2 (he ▸ hqn)
              have hq3 : q ≠ 3 := fun he => h3 (he ▸ hqn)
              have hq5 : 5 ≤ q := by
                rcases Nat.lt_or_ge q 5 with hlt | hge
                · exfalso
                  have hq2le := hqp.two_le
                  interval_cases q
                  · exact hq2 rfl
                  · exact hq3 rfl
                  · exact absurd hqp (by norm_num)
                · exact hge
              have hqmod : q % 6 = 1 ∨ q % 6 = 5 := by
                have hq2d : ¬ 2 ∣ q := fun hd =>
                  hq2 ((hqp.eq_one_or_self_of_dvd 2 hd).resolve_left (by omega)).symm
                have hq3d : ¬ 3 ∣ q := fun hd =>
                  hq3 ((hqp.eq_one_or_self_of_dvd 3 hd).resolve_left (by omega)).symm
                rw [Nat.dvd_iff_mod_eq_zero] at hq2d hq3d
                omega
              have hqc' : q ≤ c := Nat.le_of_dvd hcpos hqc
              have hclt : c < i + 2 := by nlinarith
              have hqq : q * q ≤ n := by nlinarith
              rcases Nat.lt_or_ge q i with hqi | hqi
              · exact absurd hqn (hb q hq5 hqi hqmod)
              · exact ⟨q, hqi, hqq, hqmod, hqn⟩
      case neg =>
        rw [if_neg hdiv]
        push_neg at hdiv
        have hdvd1 : ¬ i ∣ n := fun hd => hdiv.1 (Nat.dvd_iff_mod_eq_zero.mp hd)
        have hdvd2 : ¬ (i + 2) ∣ n := fun hd => hdiv.2 (Nat.dvd_iff_mod_eq_zero.mp hd)
        have hfuel6 : n + 1 - (i + 6) * (i + 6) ≤ f := by
          have : i * i < (i + 6) * (i + 6) := by nlinarith
          omega
        have hb6 : ∀ m, 5 ≤ m → m < i + 6 → m % 6 = 1 ∨ m % 6 = 5 → ¬ m ∣ n := by
          intro m hm5 hmlt hmod
          rcases Nat.lt_or_ge m i with hmi | hmi
          · exact hb m hm5 hmi hmod
          · have : m = i ∨ m = i + 2 := by omega
            rcases this with rfl | rfl
            · exact hdvd1
            · exact hdvd2
        rw [ih n (i + 6) hfuel6 (by omega) hn h2 h3 hb6]
        constructor
        · intro h m him hm hmod hdvd
          rcases Nat.lt_or_ge m (i + 6) with hm6 | hm6
          · have : m = i ∨ m = i + 2 := by omega
            rcases this with rfl | rfl
            · exact hdvd1 hdvd
            · exact hdvd2 hdvd
          · exact h m hm6 hm hmod hdvd
        · intro h m him hm hmod hdvd
          exact h m (by omega) hm hmod hdvd

theorem isPrimeSrc_natCast_iff (n : Nat) : isPrimeSrc (n : Int) = true ↔ n.Prime := by
  unfold isPrimeSrc
  by_cases h1 : n ≤ 1
  · rw [if_pos (by exact_mod_cast h1)]
    simp only [Bool.false_eq_true, false_iff]
    intro hp
    have := hp.two_le
    omega
  · rw [if_neg (by exact_mod_cast h1)]
    by_cases h3 : n ≤ 3
    · rw [if_pos (by exact_mod_cast h3)]
      simp only [true_iff]
      have hn23 : n = 2 ∨ n = 3 := by omega
      rcases hn23 with rfl | rfl
      · exact Nat.prime_two
      · exact Nat.prime_three
    · rw [if_neg (by exact_mod_cast h3)]
      by_cases h23 : n % 2 = 0 ∨ n % 3 = 0
      · rw [if_pos (by exact_mod_cast h23)]
        simp only [Bool.false_eq_true, false_iff]
        intro hp
        rcases h23 with h | h
        · have hd : 2 ∣ n := Nat.dvd_iff_mod_eq_zero.mpr h
          have := (hp.eq_one_or_self_of_dvd 2 hd).resolve_left (by omega)
          omega
        · have hd : 3 ∣ n := Nat.dvd_iff_mod_eq_zero.mpr h
          have := (hp.eq_one_or_self_of_dvd 3 hd).resolve_left (by omega)
          omega
      · rw [if_neg (by exact_mod_cast h23)]
        obtain ⟨h2m, h3m⟩ := not_or.mp h23
        have h2d : ¬ 2 ∣ n := fun hd => h2m (Nat.dvd_iff_mod_eq_zero.mp hd)
        have h3d : ¬ 3 ∣ n := fun hd => h3m (Nat.dvd_iff_mod_eq_zero.mp hd)
        have htn : ((n : Int)).toNat = n := Int.toNat_natCast n
        rw [htn]
        rw [trialLoop_iff (n + 1) n 5 (by omega) (by norm_num) (by omega) h2d h3d
          (fun m hm5 hmlt _ => absurd hmlt (by omega))]
        constructor
        · intro h
          by_contra hnp
          have hmf : n.minFac * n.minFac ≤ n := by
            have := Nat.minFac_sq_le_self (by omega) hnp
            nlinarith [this]
          have hqp : n.minFac.Prime := Nat.minFac_prime (by omega)
          have hqd : n.minFac ∣ n := Nat.minFac_dvd n
          have hq2 : n.minFac ≠ 2 := fun he => h2d (he ▸ hqd)
          have hq3 : n.minFac ≠ 3 := fun he => h3d (he ▸ hqd)
          have hq5 : 5 ≤ n.minFac := by
            rcases Nat.lt_or_ge n.minFac 5 with hlt | hge
            · exfalso
              have hq2le := hqp.two_le
              have hcase : n.minFac = 2 ∨ n.minFac = 3 ∨ n.minFac = 4 := by omega
              rcases hcase with he | he | he
              · exact hq2 he
              · exact hq3 he
              · rw [he] at hqp
                exact absurd hqp (by norm_num)
            · exact hge
          have hqmod : n.minFac % 6 = 1 ∨ n.minFac % 6 = 5 := by
            have hq2d : ¬ 2 ∣ n.minFac := fun hd =>
              hq2 ((hqp.eq_one_or_self_of_dvd 2 hd).resolve_left (by omega)).symm
            have hq3d : ¬ 3 ∣ n.minFac := fun hd =>
              hq3 ((hqp.eq_one_or_self_of_dvd 3 hd).resolve_left (by omega)).symm
            rw [Nat.dvd_iff_mod_eq_zero] at hq2d hq3d
            omega
          exact (h n.minFac hq5 hmf hqmod) hqd
        · intro hp m hm5 hmm hmod hdvd
          rcases hp.eq_one_or_self_of_dvd m hdvd with he | he
          · omega
          · rw [he] at hmm hm5
            nlinarith

theorem isPrimeSrc_toInt32 (n : Nat) (h : n ≤ 2147483647) :
    isPrimeSrc (toInt32 n) = decide (Nat.Prime n) := by
  unfold toInt32
  rw [if_pos h]
  apply Bool.coe_iff_coe.mp
  rw [decide_eq_true_eq]
  exact isPrimeSrc_natCast_iff n

theorem foldl_mul_mod : ∀ (l : List Nat) (acc : Nat),
    l.foldl (fun a i => a * i % u32) (acc % u32) = (l.foldl (· * ·) acc) % u32 := by
  intro l
  induction l with
  | nil => intro _; rfl
  | cons x xs ih =>
    intro acc
    show xs.foldl _ (acc % u32 * x % u32) = (xs.foldl (· * ·) (acc * x)) % u32
    rw [Nat.mod_mul_mod]
    exact ih (acc * x)

theorem fieldInit_eq (minimum maximum : Nat) (hb1 : ¬ maximum < 2)
    (hb2 : ¬ maximum < minimum)
    (hb3 : ¬ (minimum = maximum ∧ ¬ isPrimeSrc (toInt32 minimum) = true)) :
    fieldInit minimum maximum =
      (if ((List.range' minimum (maximum - minimum + 1)).filter
            (fun i => isPrimeSrc (toInt32 i))).isEmpty
        then Except.error "The given interval does not contain a prime number."
        else Except.ok
          ((List.range' minimum (maximum - minimum + 1)).filter (fun i => isPrimeSrc (toInt32 i)),
            ((List.range' minimum (maximum - minimum + 1)).filter
              (fun i => isPrimeSrc (toInt32 i))).foldl (fun acc i => acc * i % u32) 1)) := by
  unfold fieldInit
  rw [if_neg hb1, if_neg hb2, if_neg hb3]

/-- Claim C6 counterexample: `initialize(2, 29)` succeeds, but the stored
characteristic `productOfAllCharacteristics_` is the product of the primes of
`[2, 29]` reduced modulo `2^32` (the running unsigned product overflows), not
the product of all primes in the interval as claimed. -/
theorem fieldInit_product_overflow :
    fieldInit 2 29 = Except.ok ([2, 3, 5, 7, 11, 13, 17, 19, 23, 29], 2174725934) ∧
      (List.range' 2 28).filter (fun i => decide (Nat.Prime i))
        = [2, 3, 5, 7, 11, 13, 17, 19, 23, 29] ∧
      ([2, 3, 5, 7, 11, 13, 17, 19, 23, 29] : List Nat).foldl (· * ·) 1 = 6469693230 ∧
      (2174725934 : Nat) ≠ 6469693230 := by
  have hb3 : ¬ ((2 : Nat) = 29 ∧ ¬ isPrimeSrc (toInt32 2) = true) := by
    intro h
    exact absurd h.1 (by decide)
  have heq := fieldInit_eq 2 29 (by decide) (by decide) hb3
  have hPeq : (List.range' 2 (29 - 2 + 1)).filter (fun i => isPrimeSrc (toInt32 i))
      = (List.range' 2 (29 - 2 + 1)).filter (fun i => decide (Nat.Prime i)) := by
    apply List.filter_congr
    intro i hi
    have := List.mem_range'_1.mp hi
    exact isPrimeSrc_toInt32 i (by omega)
  rw [hPeq] at heq
  have hfilter : (List.range' 2 (29 - 2 + 1)).filter (fun i => decide (Nat.Prime i))
      = [2, 3, 5, 7, 11, 13, 17, 19, 23, 29] := by decide
  rw [hfilter] at heq
  rw [if_neg (by decide)] at heq
  have hfold : ([2, 3, 5, 7, 11, 13, 17, 19, 23, 29] : List Nat).foldl
      (fun acc i => acc * i % u32) 1 = 2174725934 := by decide
  rw [hfold] at heq
  exact ⟨heq, by decide, by decide, by decide⟩

/-- Claim C6 (amended): for `maximum ≤ 2^31 - 1` (the primality test converts
its unsigned argument to a signed 32-bit `int`, so larger values are
misclassified), `initialize(minimum, maximum)` throws an invalid-argument
error if and only if `maximum < 2`, or `minimum > maximum`, or no prime lies
in `[minimum, maximum]` (including `minimum == maximum` with that value not
prime); on success it sets the characteristic to the product of all primes in
the interval reduced modulo `2^32`. -/
theorem fieldInit_spec (minimum maximum : Nat) (hmax : maximum ≤ 2147483647) :
    ((∃ e, fieldInit minimum maximum = Except.error e) ↔
      (maximum < 2 ∨ maximum < minimum ∨ ∀ q, minimum ≤ q → q ≤ maximum → ¬ q.Prime)) ∧
    ∀ primes char, fieldInit minimum maximum = Except.ok (primes, char) →
      primes = (List.range' minimum (maximum - minimum + 1)).filter
          (fun i => decide (Nat.Prime i)) ∧
        char = primes.foldl (· * ·) 1 % 2 ^ 32 := by
  by_cases b1 : maximum < 2
  · have he : fieldInit minimum maximum
        = Except.error "Characteristic must be strictly positive" := by
      unfold fieldInit
      rw [if_pos b1]
    constructor
    · exact ⟨fun _ => Or.inl b1, fun _ => ⟨_, he⟩⟩
    · intro primes char h
      rw [he] at h
      exact Except.noConfusion h
  by_cases b2 : maximum < minimum
  · have he : fieldInit minimum maximum = Except.error "The given interval is not valid." := by
      unfold fieldInit
      rw [if_neg b1, if_pos b2]
    constructor
    · exact ⟨fun _ => Or.inr (Or.inl b2), fun _ => ⟨_, he⟩⟩
    · intro primes char h
      rw [he] at h
      exact Except.noConfusion h
  by_cases b3 : minimum = maximum ∧ ¬ isPrimeSrc (toInt32 minimum) = true
  · have he : fieldInit minimum maximum
        = Except.error "The given interval does not contain a prime number." := by
      unfold fieldInit
      rw [if_neg b1, if_neg b2, if_pos b3]
    constructor
    · refine ⟨fun _ => ?_, fun _ => ⟨_, he⟩⟩
      right
      right
      intro q hq1 hq2 hp
      have hqm : q = minimum := by omega
      subst hqm
      have hps := b3.2
      rw [isPrimeSrc_toInt32 q (by omega)] at hps
      rw [decide_eq_true_eq] at hps
      exact hps hp
    · intro primes char h
      rw [he] at h
      exact Except.noConfusion h
  · have heq := fieldInit_eq minimum maximum b1 b2 b3
    have hPeq : (List.range' minimum (maximum - minimum + 1)).filter
          (fun i => isPrimeSrc (toInt32 i))
        = (List.range' minimum (maximum - minimum + 1)).filter
          (fun i => decide (Nat.Prime i)) := by
      apply List.filter_congr
      intro i hi
      have hile : i ≤ maximum := by
        have := List.mem_range'_1.mp hi
        omega
      exact isPrimeSrc_toInt32 i (by omega)
    by_cases bE : ((List.range' minimum (maximum - minimum + 1)).filter
        (fun i => isPrimeSrc (toInt32 i))).isEmpty = true
    · rw [if_pos bE] at heq
      constructor
      · refine ⟨fun _ => ?_, fun _ => ⟨_, heq⟩⟩
        right
        right
        intro q h1 h2 hp
        have hmem : q ∈ List.range' minimum (maximum - minimum + 1) :=
          List.mem_range'_1.mpr ⟨h1, by omega⟩
        have hnil : (List.range' minimum (maximum - minimum + 1)).filter
            (fun i => isPrimeSrc (toInt32 i)) = [] := List.isEmpty_iff.mp bE
        rw [hPeq] at hnil
        have hno := List.filter_eq_nil_iff.mp hnil q hmem
        simp only [decide_eq_true_eq] at hno
        exact hno hp
      · intro primes char h
        rw [heq] at h
        exact Except.noConfusion h
    · rw [if_neg bE] at heq
      constructor
      · constructor
        · rintro ⟨e, he⟩
          rw [heq] at he
          exact Except.noConfusion he
        · intro hor
          exfalso
          rcases hor with h | h | h
          · exact b1 h
          · exact b2 h
          · have hne : (List.range' minimum (maximum - minimum + 1)).filter
                (fun i => isPrimeSrc (toInt32 i)) ≠ [] :=
              fun hnil => bE (List.isEmpty_iff.mpr hnil)
            obtain ⟨q, hq⟩ := List.exists_mem_of_ne_nil _ hne
            rw [hPeq] at hq
            obtain ⟨hqr, hqp⟩ := List.mem_filter.mp hq
            obtain ⟨hq1, hq2⟩ := List.mem_range'_1.mp hqr
            rw [decide_eq_true_eq] at hqp
            exact h q hq1 (by omega) hqp
      · intro primes char h
        rw [heq] at h
        have hpair := Except.ok.inj h
        have h1 : (List.range' minimum (maximum - minimum + 1)).filter
            (fun i => isPrimeSrc (toInt32 i)) = primes := congrArg Prod.fst hpair
        have h2 : ((List.range' minimum (maximum - minimum + 1)).filter
              (fun i => isPrimeSrc (toInt32 i))).foldl (fun acc i => acc * i % u32) 1
            = char := congrArg Prod.snd hpair
        constructor
        · rw [← h1]
          exact hPeq
        · rw [← h2, ← h1]
          conv_lhs => rw [show (1 : Nat) = 1 % u32 from by norm_num [u32]]
          rw [foldl_mul_mod]
          norm_num [u32]

theorem fieldInit_spec_witness :
    ((∃ e, fieldInit 3 10 = Except.error e) ↔
      (10 < 2 ∨ 10 < 3 ∨ ∀ q, 3 ≤ q → q ≤ 10 → ¬ q.Prime)) ∧
    ∀ primes char, fieldInit 3 10 = Except.ok (primes, char) →
      primes = (List.range' 3 (10 - 3 + 1)).filter (fun i => decide (Nat.Prime i)) ∧
        char = primes.foldl (· * ·) 1 % 2 ^ 32 :=
  fieldInit_spec 3 10 (by decide)

end MultiField
